import Mathlib

/-!
Verification development for the fiji-unwrapper AST diffing engine.

The embedding follows the TypeScript sources:
  * `src/ast/compare.ts`   — `Deviation`, `compareASTs`, `filterMoves`
  * `src/ast/utils.ts`     — `getNodeDescription`
  * `src/diff/generate.ts` — two `getLineNumber` implementations

JS machine integers never overflow in this code path (array indices and
character offsets), so offsets are `Nat` and JS primitive values are a small
closed variant type.
-/

namespace Fiji

/-- The two tags of a reported deviation (`type: 'addition' | 'removal'`). -/
inductive DevType where
  | addition
  | removal
deriving DecidableEq, Repr

/-- `Deviation` from src/ast/compare.ts.  The source field `end` is a Lean
keyword, rendered here as `stop`; `description?` is an `Option String`. -/
structure Deviation where
  type : DevType
  start : Nat
  stop : Nat
  nodeType : String
  description : Option String
deriving DecidableEq, Repr

/-- The move-matching key used by `filterMoves`:
`` `${d.nodeType}::${d.description || ''}` `` — JS `undefined || ''` and
`'' || ''` both give `''`, i.e. `Option.getD ""`. -/
def devKey (d : Deviation) : String := d.nodeType ++ "::" ++ d.description.getD ""

/-! `filterMoves` (src/ast/compare.ts lines 247-301), translated with its
`additionMap : Map<string, number[]>` realized as an insertion-ordered
association list (only `get`/`set`/`delete` and per-key FIFO order are used,
which the association list reproduces exactly). -/

/-- The addition lookup map: key string to the indices (into the `additions`
array) of the not-yet-consumed additions with that key, in ascending order. -/
abbrev AddMap := List (String × List Nat)

/-- `additionMap.get(key)`: the value at the first (in a well-formed map,
only) entry whose key equals `k`. -/
def mapGet : AddMap → String → Option (List Nat)
  | [], _ => none
  | (k', v) :: rest, k => if k' = k then some v else mapGet rest k

/-- `additionMap.get(key)!.push(index)` preceded by
`additionMap.set(key, [])` when absent: append `i` to the entry for `k`,
creating it at the end when missing (JS `Map` insertion order). -/
def mapPush : AddMap → String → Nat → AddMap
  | [], k, i => [(k, [i])]
  | (k', is) :: rest, k, i =>
    if k' = k then (k', is ++ [i]) :: rest else (k', is) :: mapPush rest k i

/-- Overwrite the value stored at an existing key (the state of the map's
entry after `shift()` removed the first index). -/
def mapSet : AddMap → String → List Nat → AddMap
  | [], _, _ => []
  | (k', is) :: rest, k, v => if k' = k then (k, v) :: rest else (k', is) :: mapSet rest k v

/-- `additionMap.delete(key)`. -/
def mapErase (m : AddMap) (k : String) : AddMap := m.filter (fun e => ¬ e.1 = k)

/-- `additions.forEach((addition, index) => ...push(index))`. -/
def buildAdditionMap (additions : List Deviation) : AddMap :=
  additions.enum.foldl (fun m ia => mapPush m (devKey ia.2) ia.1) []

/-- The `for (const removal of removals)` loop: returns the removals pushed to
`finalDeviations` (the unmatched ones, in order) and the collected
`matchedAdditionIndices` (as the list of consumed indices).
`potentialMatches.shift()` takes the first index stored for the key; the map
entry is deleted once emptied.  The defensive `matchIndex === undefined`
branch of the source is unreachable (the match arm requires a nonempty list).
-/
def processRemovals : List Deviation → AddMap → List Deviation × List Nat
  | [], _ => ([], [])
  | r :: rs, m =>
    match mapGet m (devKey r) with
    | some (i :: restIdx) =>
      let m' := if restIdx = [] then mapErase m (devKey r) else mapSet m (devKey r) restIdx
      let p := processRemovals rs m'
      (p.1, i :: p.2)
    | _ =>
      let p := processRemovals rs m
      (r :: p.1, p.2)

/-- `filterMoves` from src/ast/compare.ts: partition into removals and
additions, return the input unchanged when either side is empty, otherwise
drop matched removal/addition pairs and return surviving removals followed by
the additions whose index was never consumed. -/
def filterMoves (deviations : List Deviation) : List Deviation :=
  let removals := deviations.filter (fun d => d.type == DevType.removal)
  let additions := deviations.filter (fun d => d.type == DevType.addition)
  if removals.length = 0 ∨ additions.length = 0 then
    deviations
  else
    let p := processRemovals removals (buildAdditionMap additions)
    p.1 ++ (additions.enum.filter (fun ia => !(p.2.contains ia.1))).map (fun ia => ia.2)

/-! Reference reconciler, modelled from the spec's words (§4.3): "partition
the input into removals and additions; build a lookup keyed by
`(nodeKind, description)` over the additions; for each removal in original
order, if an unconsumed addition with the identical key exists, consume one
such addition (first-available) and drop the removal; ... all surviving
removals first (in original relative order), followed by all surviving
additions (in original relative order)".  It is parameterized by the matching
key so that both the spec's pair key and the code's joined string key can be
compared against `filterMoves`. -/

/-- Remove the first element of the list whose key is `k`; `none` when no
element matches. -/
def removeFirstMatch {κ : Type} [DecidableEq κ] (key : Deviation → κ) (k : κ) :
    List Deviation → Option (List Deviation)
  | [] => none
  | a :: rest =>
    if key a = k then some rest
    else (removeFirstMatch key k rest).map (fun r => a :: r)

/-- Scan the removals in order; each removal consumes the first
still-unconsumed addition with the same key, or survives. Returns
(surviving removals, surviving additions), each in original relative order. -/
def matchRemovals {κ : Type} [DecidableEq κ] (key : Deviation → κ) :
    List Deviation → List Deviation → List Deviation × List Deviation
  | [], avail => ([], avail)
  | r :: rs, avail =>
    match removeFirstMatch key (key r) avail with
    | some avail2 => matchRemovals key rs avail2
    | none =>
      let p := matchRemovals key rs avail
      (r :: p.1, p.2)

/-- Modelled from the spec (§4.3 Move Reconciler): the reconciler as the spec
describes it, generic in the matching key. -/
def reconcile {κ : Type} [DecidableEq κ] (key : Deviation → κ) (ds : List Deviation) :
    List Deviation :=
  let removals := ds.filter (fun d => d.type == DevType.removal)
  let additions := ds.filter (fun d => d.type == DevType.addition)
  let p := matchRemovals key removals additions
  p.1 ++ p.2

/-- The `(nodeKind, description)` pair key named by the spec, an absent
description read as the empty string. -/
def pairKey (d : Deviation) : String × String := (d.nodeType, d.description.getD "")

/-! Bridge between the map-based source translation and the scan: an indexed
variant of the scan that carries each addition's index in the `additions`
array, mirroring the bookkeeping done through `additionMap` and
`matchedAdditionIndices`. -/

/-- Indexed `removeFirstMatch` on (index, addition) pairs. -/
def removeFirstMatchIdx (k : String) : List (Nat × Deviation) → Option (List (Nat × Deviation))
  | [] => none
  | ia :: rest =>
    if devKey ia.2 = k then some rest
    else (removeFirstMatchIdx k rest).map (fun r => ia :: r)

/-- Indexed scan over the removals. -/
def matchRemovalsIdx : List Deviation → List (Nat × Deviation) → List Deviation × List (Nat × Deviation)
  | [], avail => ([], avail)
  | r :: rs, avail =>
    match removeFirstMatchIdx (devKey r) avail with
    | some avail2 => matchRemovalsIdx rs avail2
    | none =>
      let p := matchRemovalsIdx rs avail
      (r :: p.1, p.2)

theorem matchRemovals_nil_avail {κ : Type} [DecidableEq κ] (key : Deviation → κ)
    (rs : List Deviation) : matchRemovals key rs [] = (rs, []) := by
  induction rs with
  | nil => rfl
  | cons r rs ih => simp [matchRemovals, removeFirstMatch, ih]

theorem removeFirstMatchIdx_map_snd (k : String) (l : List (Nat × Deviation)) :
    removeFirstMatch devKey k (l.map Prod.snd) = (removeFirstMatchIdx k l).map (List.map Prod.snd) := by
  induction l with
  | nil => rfl
  | cons ia rest ih =>
    by_cases h : devKey ia.2 = k
    · simp [removeFirstMatch, removeFirstMatchIdx, h]
    · rcases hr : removeFirstMatchIdx k rest with _ | r <;>
        simp_all [removeFirstMatch, removeFirstMatchIdx, h]

theorem removeFirstMatchIdx_some {k : String} :
    ∀ {avail avail2 : List (Nat × Deviation)}, removeFirstMatchIdx k avail = some avail2 →
    ∃ pre x post, avail = pre ++ x :: post ∧ avail2 = pre ++ post ∧ devKey x.2 = k ∧
      ∀ y ∈ pre, ¬ devKey y.2 = k := by
  intro avail
  induction avail with
  | nil => intro avail2 h; simp [removeFirstMatchIdx] at h
  | cons ia rest ih =>
    intro avail2 h
    by_cases hk : devKey ia.2 = k
    · have h2 : rest = avail2 := by simpa [removeFirstMatchIdx, hk] using h
      exact ⟨[], ia, rest, by simp, by simp [h2], hk, by simp⟩
    · rcases hr : removeFirstMatchIdx k rest with _ | r
      · rw [removeFirstMatchIdx, if_neg hk, hr] at h
        simp at h
      · rw [removeFirstMatchIdx, if_neg hk, hr] at h
        have hav : ia :: r = avail2 := by simpa using h
        obtain ⟨pre, x, post, h1, h2, h3, h4⟩ := ih hr
        refine ⟨ia :: pre, x, post, by simp [h1], by simp [← hav, h2], h3, ?_⟩
        intro y hy
        rcases List.mem_cons.mp hy with rfl | hy
        · exact hk
        · exact h4 y hy

theorem removeFirstMatchIdx_none {k : String} : ∀ {avail : List (Nat × Deviation)},
    removeFirstMatchIdx k avail = none ↔
      avail.filter (fun ia => devKey ia.2 == k) = [] := by
  intro avail
  induction avail with
  | nil => simp [removeFirstMatchIdx]
  | cons ia rest ih =>
    by_cases hk : devKey ia.2 = k
    · simp [removeFirstMatchIdx, hk]
    · simp [removeFirstMatchIdx, hk, ih]

theorem matchRemovalsIdx_snd_sublist : ∀ (rs : List Deviation) (avail : List (Nat × Deviation)),
    (matchRemovalsIdx rs avail).2.Sublist avail := by
  intro rs
  induction rs with
  | nil => intro avail; simp [matchRemovalsIdx]
  | cons r rs ih =>
    intro avail
    rcases h : removeFirstMatchIdx (devKey r) avail with _ | avail2
    · simpa [matchRemovalsIdx, h] using ih avail
    · obtain ⟨pre, x, post, h1, h2, _, _⟩ := removeFirstMatchIdx_some h
      have hsub : avail2.Sublist avail := by
        rw [h1, h2]
        exact (List.Sublist.refl pre).append (List.sublist_cons_self x post)
      simpa [matchRemovalsIdx, h] using (ih avail2).trans hsub

theorem matchRemovalsIdx_spec : ∀ (rs : List Deviation) (avail : List (Nat × Deviation)),
    (matchRemovalsIdx rs avail).1 = (matchRemovals devKey rs (avail.map Prod.snd)).1 ∧
    (matchRemovalsIdx rs avail).2.map Prod.snd = (matchRemovals devKey rs (avail.map Prod.snd)).2 := by
  intro rs
  induction rs with
  | nil => intro avail; simp [matchRemovalsIdx, matchRemovals]
  | cons r rs ih =>
    intro avail
    rcases h : removeFirstMatchIdx (devKey r) avail with _ | avail2
    · have h' : removeFirstMatch devKey (devKey r) (avail.map Prod.snd) = none := by
        rw [removeFirstMatchIdx_map_snd, h]; rfl
      simp [matchRemovalsIdx, matchRemovals, h, h', (ih avail).1, (ih avail).2]
    · have h' : removeFirstMatch devKey (devKey r) (avail.map Prod.snd) = some (avail2.map Prod.snd) := by
        rw [removeFirstMatchIdx_map_snd, h]; rfl
      simp [matchRemovalsIdx, matchRemovals, h, h', (ih avail2).1, (ih avail2).2]

/-- The map invariant of the removal loop: the entry stored for each key lists
exactly the indices of the still-available additions with that key, in order. -/
def Represents (m : AddMap) (avail : List (Nat × Deviation)) : Prop :=
  ∀ k, (mapGet m k).getD [] = (avail.filter (fun ia => devKey ia.2 == k)).map Prod.fst

theorem mapGet_mapPush_self (m : AddMap) (k : String) (i : Nat) :
    mapGet (mapPush m k i) k = some ((mapGet m k).getD [] ++ [i]) := by
  induction m with
  | nil => simp [mapPush, mapGet]
  | cons e rest ih =>
    obtain ⟨ek, ev⟩ := e
    by_cases he : ek = k
    · simp [mapPush, mapGet, he]
    · simp [mapPush, mapGet, he, ih]

theorem mapGet_mapPush_other (m : AddMap) (k k' : String) (i : Nat) (h : ¬ k = k') :
    mapGet (mapPush m k i) k' = mapGet m k' := by
  induction m with
  | nil => simp [mapPush, mapGet, h]
  | cons e rest ih =>
    obtain ⟨ek, ev⟩ := e
    by_cases he : ek = k
    · simp [mapPush, mapGet, he, h]
    · simp [mapPush, mapGet, he, ih]

theorem mapGet_mapSet_self (m : AddMap) (k : String) (v w : List Nat)
    (h : mapGet m k = some w) : mapGet (mapSet m k v) k = some v := by
  induction m with
  | nil => simp [mapGet] at h
  | cons e rest ih =>
    obtain ⟨ek, ev⟩ := e
    by_cases he : ek = k
    · simp [mapSet, mapGet, he]
    · rw [mapGet, if_neg he] at h
      simp [mapSet, mapGet, he, ih h]

theorem mapGet_mapSet_other (m : AddMap) (k k' : String) (v : List Nat) (h : ¬ k = k') :
    mapGet (mapSet m k v) k' = mapGet m k' := by
  induction m with
  | nil => simp [mapSet, mapGet]
  | cons e rest ih =>
    obtain ⟨ek, ev⟩ := e
    by_cases he : ek = k
    · subst he
      simp [mapSet, mapGet, h]
    · simp [mapSet, mapGet, he, ih]

theorem mapGet_mapErase_self (m : AddMap) (k : String) :
    mapGet (mapErase m k) k = none := by
  induction m with
  | nil => simp [mapErase, mapGet]
  | cons e rest ih =>
    obtain ⟨ek, ev⟩ := e
    by_cases he : ek = k
    · simpa [mapErase, List.filter_cons, he] using ih
    · simpa [mapErase, List.filter_cons, mapGet, he] using ih

theorem mapGet_mapErase_other (m : AddMap) (k k' : String) (h : ¬ k = k') :
    mapGet (mapErase m k) k' = mapGet m k' := by
  induction m with
  | nil => simp [mapErase, mapGet]
  | cons e rest ih =>
    obtain ⟨ek, ev⟩ := e
    by_cases he : ek = k
    · subst he
      simpa [mapErase, List.filter_cons, mapGet, h] using ih
    · have hd : (decide ¬ ek = k) = true := by simp [he]
      simp only [mapErase, List.filter_cons] at *
      simp only [hd, if_true, mapGet]
      rw [ih]

theorem getD_nil_eq_cons {o : Option (List Nat)} {a : Nat} {l : List Nat}
    (h : o.getD [] = a :: l) : o = some (a :: l) := by
  cases o with
  | none => simp at h
  | some v => simp only [Option.getD_some] at h; rw [h]

theorem foldl_mapPush (k : String) :
    ∀ (l : List (Nat × Deviation)) (m : AddMap),
    (mapGet (l.foldl (fun m ia => mapPush m (devKey ia.2) ia.1) m) k).getD []
      = (mapGet m k).getD [] ++ (l.filter (fun ia => devKey ia.2 == k)).map Prod.fst := by
  intro l
  induction l with
  | nil => intro m; simp
  | cons ia rest ih =>
    intro m
    by_cases hk : devKey ia.2 = k
    · rw [List.foldl_cons, ih, hk, mapGet_mapPush_self]
      simp [List.filter_cons, hk]
    · rw [List.foldl_cons, ih, mapGet_mapPush_other _ _ _ _ hk]
      simp [List.filter_cons, hk]

theorem buildAdditionMap_represents (additions : List Deviation) :
    Represents (buildAdditionMap additions) additions.enum := by
  intro k
  rw [buildAdditionMap, foldl_mapPush]
  simp [mapGet]

theorem filter_mem_fst_of_sublist :
    ∀ {l l' : List (Nat × Deviation)}, l'.Sublist l → (l.map Prod.fst).Nodup →
    l.filter (fun x => decide (x.1 ∈ l'.map Prod.fst)) = l' := by
  intro l l' h
  induction h with
  | slnil => intro _; rfl
  | cons a h ih =>
    rename_i l₁ l₂
    intro hnd
    simp only [List.map_cons, List.nodup_cons] at hnd
    have ha : a.1 ∉ l₁.map Prod.fst := fun hc => hnd.1 ((h.map Prod.fst).mem hc)
    rw [List.filter_cons, if_neg (by simp [ha]), ih hnd.2]
  | cons₂ a h ih =>
    rename_i l₁ l₂
    intro hnd
    simp only [List.map_cons, List.nodup_cons] at hnd
    rw [List.filter_cons, if_pos (by simp)]
    congr 1
    rw [List.filter_congr (q := fun x => decide (x.1 ∈ l₁.map Prod.fst)), ih hnd.2]
    intro y hy
    have hy1 : y.1 ∈ l₂.map Prod.fst := List.mem_map_of_mem Prod.fst hy
    have : ¬ y.1 = a.1 := fun hc => hnd.1 (hc ▸ hy1)
    simp [this]

/-- Main bridge between the source's map-based removal loop and the indexed
scan: the unmatched removals coincide, and an addition index was recorded as
consumed exactly when it is no longer among the surviving additions. -/
theorem processRemovals_bridge :
    ∀ (rs : List Deviation) (m : AddMap) (avail : List (Nat × Deviation)),
    Represents m avail → (avail.map Prod.fst).Nodup →
    (processRemovals rs m).1 = (matchRemovalsIdx rs avail).1 ∧
    (∀ j, j ∈ (processRemovals rs m).2 ↔
      (j ∈ avail.map Prod.fst ∧ ¬ j ∈ (matchRemovalsIdx rs avail).2.map Prod.fst)) := by
  intro rs
  induction rs with
  | nil =>
    intro m avail hrep hnd
    refine ⟨rfl, fun j => ?_⟩
    simp [processRemovals, matchRemovalsIdx]
  | cons r rs ih =>
    intro m avail hrep hnd
    rcases hfil : avail.filter (fun ia => devKey ia.2 == devKey r) with _ | ⟨x, xs⟩
    · -- no available addition with this key: the removal survives
      have hget : (mapGet m (devKey r)).getD [] = [] := by rw [hrep, hfil]; rfl
      have hrfm : removeFirstMatchIdx (devKey r) avail = none :=
        removeFirstMatchIdx_none.mpr hfil
      obtain ⟨ih1, ih2⟩ := ih m avail hrep hnd
      rcases hg : mapGet m (devKey r) with _ | v
      · constructor
        · simp only [processRemovals, hg, matchRemovalsIdx, hrfm]
          rw [ih1]
        · intro j
          simp only [processRemovals, hg, matchRemovalsIdx, hrfm]
          exact ih2 j
      · have hv : v = [] := by rw [hg] at hget; simpa using hget
        subst hv
        constructor
        · simp only [processRemovals, hg, matchRemovalsIdx, hrfm]
          rw [ih1]
        · intro j
          simp only [processRemovals, hg, matchRemovalsIdx, hrfm]
          exact ih2 j
    · -- an addition is available: consume the first one with this key
      have hget : (mapGet m (devKey r)).getD [] = x.1 :: xs.map Prod.fst := by
        rw [hrep, hfil]; rfl
      have hg : mapGet m (devKey r) = some (x.1 :: xs.map Prod.fst) := getD_nil_eq_cons hget
      rcases hrfm : removeFirstMatchIdx (devKey r) avail with _ | avail2
      · rw [removeFirstMatchIdx_none] at hrfm
        rw [hrfm] at hfil
        exact absurd hfil (by simp)
      obtain ⟨pre, y, post, hav, hav2, hky, hpre⟩ := removeFirstMatchIdx_some hrfm
      have hfilpre : pre.filter (fun ia => devKey ia.2 == devKey r) = [] :=
        List.filter_eq_nil_iff.mpr (fun z hz => by simp [hpre z hz])
      have hfil2 : avail.filter (fun ia => devKey ia.2 == devKey r)
          = y :: post.filter (fun ia => devKey ia.2 == devKey r) := by
        rw [hav, List.filter_append, hfilpre, List.filter_cons, if_pos (by simp [hky])]
        rfl
      rw [hfil] at hfil2
      injection hfil2 with hxy hxs
      subst hxy
      have havail2fil : avail2.filter (fun ia => devKey ia.2 == devKey r) = xs := by
        rw [hav2, List.filter_append, hfilpre, List.nil_append, hxs]
      have havail2fil_other : ∀ k', ¬ devKey r = k' →
          avail2.filter (fun ia => devKey ia.2 == k') =
          avail.filter (fun ia => devKey ia.2 == k') := by
        intro k' hk'
        rw [hav, hav2, List.filter_append, List.filter_append, List.filter_cons,
          if_neg (by simp [hky, hk'])]
      have hnd2 : (avail2.map Prod.fst).Nodup := by
        refine hnd.sublist (List.Sublist.map Prod.fst ?_)
        rw [hav, hav2]
        exact (List.Sublist.refl pre).append (List.sublist_cons_self x post)
      have hxnot2 : x.1 ∉ avail2.map Prod.fst := by
        have hmid : (pre.map Prod.fst ++ x.1 :: post.map Prod.fst).Nodup := by
          have h0 := hnd
          rw [hav] at h0
          simpa using h0
        rw [List.nodup_middle, List.nodup_cons] at hmid
        rw [hav2, List.map_append]
        exact fun hc => hmid.1 (by simpa using hc)
      have hxin : x.1 ∈ avail.map Prod.fst := by
        rw [hav]
        simp
      -- the new map state represents the reduced availability
      have hrep2 : Represents (if xs.map Prod.fst = [] then mapErase m (devKey r)
          else mapSet m (devKey r) (xs.map Prod.fst)) avail2 := by
        intro k'
        by_cases hk' : devKey r = k'
        · subst hk'
          by_cases hnilxs : xs.map Prod.fst = []
          · have hxsnil : xs = [] := by
              cases xs with
              | nil => rfl
              | cons a b => simp at hnilxs
            rw [if_pos hnilxs, mapGet_mapErase_self, havail2fil, hxsnil]
            rfl
          · rw [if_neg hnilxs, mapGet_mapSet_self m _ _ _ hg, havail2fil]
            rfl
        · have hother : avail2.filter (fun ia => devKey ia.2 == k') =
              avail.filter (fun ia => devKey ia.2 == k') := havail2fil_other k' hk'
          by_cases hnilxs : xs.map Prod.fst = []
          · rw [if_pos hnilxs, mapGet_mapErase_other m _ _ hk', hrep, hother]
          · rw [if_neg hnilxs, mapGet_mapSet_other m _ _ _ hk', hrep, hother]
      obtain ⟨ih1, ih2⟩ := ih _ avail2 hrep2 hnd2
      have hkept : (matchRemovalsIdx rs avail2).2.Sublist avail2 := matchRemovalsIdx_snd_sublist rs avail2
      constructor
      · simp only [processRemovals, hg, matchRemovalsIdx, hrfm]
        exact ih1
      · intro j
        simp only [processRemovals, hg, matchRemovalsIdx, hrfm, List.mem_cons]
        rw [ih2 j]
        constructor
        · rintro (rfl | ⟨hj1, hj2⟩)
          · refine ⟨hxin, fun hc => hxnot2 ?_⟩
            exact (hkept.map Prod.fst).mem hc
          · refine ⟨?_, hj2⟩
            rw [hav]
            rw [hav2] at hj1
            simp only [List.map_append, List.mem_append] at hj1 ⊢
            rcases hj1 with hj1 | hj1
            · exact Or.inl hj1
            · exact Or.inr (by simp [hj1])
        · rintro ⟨hj1, hj2⟩
          by_cases hjx : j = x.1
          · exact Or.inl hjx
          · refine Or.inr ⟨?_, hj2⟩
            rw [hav] at hj1
            rw [hav2]
            simp only [List.map_append, List.map_cons, List.mem_append, List.mem_cons] at hj1 ⊢
            rcases hj1 with hj1 | hj1 | hj1
            · exact Or.inl hj1
            · exact absurd hj1 hjx
            · exact Or.inr hj1

/-- `filterMoves` coincides with the spec-shaped reconciler run with the
source's joined matching key. -/
theorem filterMoves_eq_reconcile_devKey (ds : List Deviation) :
    filterMoves ds = reconcile devKey ds := by
  by_cases hrem : ds.filter (fun d => d.type == DevType.removal) = []
  · have hds : ds.filter (fun d => d.type == DevType.addition) = ds := by
      rw [List.filter_eq_self]
      intro d hd
      cases h : d.type with
      | addition => simp
      | removal =>
        have hmem : d ∈ ds.filter (fun d => d.type == DevType.removal) := by
          simp [List.mem_filter, hd, h]
        rw [hrem] at hmem
        simp at hmem
    have hcond : (ds.filter (fun d => d.type == DevType.removal)).length = 0 ∨
        (ds.filter (fun d => d.type == DevType.addition)).length = 0 :=
      Or.inl (by rw [hrem]; rfl)
    rw [filterMoves, reconcile]
    simp only [if_pos hcond, hrem]
    simp [matchRemovals, hds]
  · by_cases hadd : ds.filter (fun d => d.type == DevType.addition) = []
    · have hds : ds.filter (fun d => d.type == DevType.removal) = ds := by
        rw [List.filter_eq_self]
        intro d hd
        cases h : d.type with
        | removal => simp
        | addition =>
          have hmem : d ∈ ds.filter (fun d => d.type == DevType.addition) := by
            simp [List.mem_filter, hd, h]
          rw [hadd] at hmem
          simp at hmem
      have hcond : (ds.filter (fun d => d.type == DevType.removal)).length = 0 ∨
          (ds.filter (fun d => d.type == DevType.addition)).length = 0 :=
        Or.inr (by rw [hadd]; rfl)
      rw [filterMoves, reconcile]
      simp only [if_pos hcond, hadd]
      simp [matchRemovals_nil_avail, hds]
    · -- both sides nonempty: the full bridge
      have hcond : ¬ ((ds.filter (fun d => d.type == DevType.removal)).length = 0 ∨
          (ds.filter (fun d => d.type == DevType.addition)).length = 0) := by
        rintro (h0 | h0)
        · exact hrem (List.eq_nil_of_length_eq_zero h0)
        · exact hadd (List.eq_nil_of_length_eq_zero h0)
      rw [filterMoves, reconcile]
      simp only [if_neg hcond]
      set removals := ds.filter (fun d => d.type == DevType.removal) with hremdef
      set additions := ds.filter (fun d => d.type == DevType.addition) with hadddef
      have hnd : (additions.enum.map Prod.fst).Nodup := by
        rw [List.enum_map_fst]
        exact List.nodup_range _
      obtain ⟨h1, h2⟩ := processRemovals_bridge removals (buildAdditionMap additions)
        additions.enum (buildAdditionMap_represents additions) hnd
      obtain ⟨hs1, hs2⟩ := matchRemovalsIdx_spec removals additions.enum
      rw [List.enum_map_snd] at hs1 hs2
      have hkept : (matchRemovalsIdx removals additions.enum).2.Sublist additions.enum :=
        matchRemovalsIdx_snd_sublist removals additions.enum
      have hfeq : additions.enum.filter
            (fun ia => !((processRemovals removals (buildAdditionMap additions)).2.contains ia.1))
          = additions.enum.filter
            (fun ia => decide (ia.1 ∈ (matchRemovalsIdx removals additions.enum).2.map Prod.fst)) := by
        apply List.filter_congr
        intro ia hia
        have hin : ia.1 ∈ additions.enum.map Prod.fst := List.mem_map_of_mem Prod.fst hia
        by_cases hmem : ia.1 ∈ (matchRemovalsIdx removals additions.enum).2.map Prod.fst
        · have hnotused : ia.1 ∉ (processRemovals removals (buildAdditionMap additions)).2 :=
            fun hc => ((h2 ia.1).mp hc).2 hmem
          simp [hmem, hnotused]
        · have hused : ia.1 ∈ (processRemovals removals (buildAdditionMap additions)).2 :=
            (h2 ia.1).mpr ⟨hin, hmem⟩
          simp [hmem, hused]
      congr 1
      · rw [h1, hs1]
      · rw [hfeq, filter_mem_fst_of_sublist hkept hnd, ← hs2]

/-! Counting lemmas for the scan: per key, the surviving removals and
additions are the excess of one side over the other. -/

/-- Number of elements of `l` whose matching key is `k`. -/
def keyCount {κ : Type} [DecidableEq κ] (key : Deviation → κ) (k : κ) (l : List Deviation) : Nat :=
  l.countP (fun d => decide (key d = k))

theorem keyCount_nil {κ : Type} [DecidableEq κ] (key : Deviation → κ) (k : κ) :
    keyCount key k [] = 0 := rfl

theorem keyCount_cons {κ : Type} [DecidableEq κ] (key : Deviation → κ) (k : κ) (d : Deviation)
    (l : List Deviation) :
    keyCount key k (d :: l) = keyCount key k l + (if key d = k then 1 else 0) := by
  by_cases h : key d = k <;> simp [keyCount, List.countP_cons, h]

theorem keyCount_append {κ : Type} [DecidableEq κ] (key : Deviation → κ) (k : κ)
    (l1 l2 : List Deviation) :
    keyCount key k (l1 ++ l2) = keyCount key k l1 + keyCount key k l2 := by
  simp [keyCount, List.countP_append]

theorem keyCount_pos_of_mem {κ : Type} [DecidableEq κ] (key : Deviation → κ) {d : Deviation}
    {l : List Deviation} (h : d ∈ l) : 0 < keyCount key (key d) l := by
  rw [keyCount, List.countP_pos_iff]
  exact ⟨d, h, by simp⟩

theorem removeFirstMatch_none_iff {κ : Type} [DecidableEq κ] (key : Deviation → κ) (k : κ) :
    ∀ (l : List Deviation), removeFirstMatch key k l = none ↔ keyCount key k l = 0 := by
  intro l
  induction l with
  | nil => simp [removeFirstMatch, keyCount]
  | cons a rest ih =>
    by_cases h : key a = k
    · simp [removeFirstMatch, h, keyCount_cons]
    · rcases hr : removeFirstMatch key k rest with _ | r <;>
        simp_all [removeFirstMatch, h, keyCount_cons]

theorem removeFirstMatch_some_decomp {κ : Type} [DecidableEq κ] {key : Deviation → κ} {k : κ} :
    ∀ {l l' : List Deviation}, removeFirstMatch key k l = some l' →
    ∃ pre x post, l = pre ++ x :: post ∧ l' = pre ++ post ∧ key x = k ∧
      ∀ y ∈ pre, ¬ key y = k := by
  intro l
  induction l with
  | nil => intro l' h; simp [removeFirstMatch] at h
  | cons a rest ih =>
    intro l' h
    by_cases hk : key a = k
    · have h2 : rest = l' := by simpa [removeFirstMatch, hk] using h
      exact ⟨[], a, rest, by simp, by simp [h2], hk, by simp⟩
    · rcases hr : removeFirstMatch key k rest with _ | r
      · rw [removeFirstMatch, if_neg hk, hr] at h
        simp at h
      · rw [removeFirstMatch, if_neg hk, hr] at h
        have hav : a :: r = l' := by simpa using h
        obtain ⟨pre, x, post, h1, h2, h3, h4⟩ := ih hr
        refine ⟨a :: pre, x, post, by simp [h1], by simp [← hav, h2], h3, ?_⟩
        intro y hy
        rcases List.mem_cons.mp hy with rfl | hy
        · exact hk
        · exact h4 y hy

theorem removeFirstMatch_some_counts {κ : Type} [DecidableEq κ] {key : Deviation → κ} {k : κ}
    {l l' : List Deviation} (h : removeFirstMatch key k l = some l') :
    keyCount key k l = keyCount key k l' + 1 ∧
    (∀ k', ¬ k' = k → keyCount key k' l' = keyCount key k' l) ∧ l'.Sublist l := by
  obtain ⟨pre, x, post, h1, h2, h3, _⟩ := removeFirstMatch_some_decomp h
  subst h1; subst h2
  refine ⟨?_, ?_, (List.Sublist.refl pre).append (List.sublist_cons_self x post)⟩
  · rw [keyCount_append, keyCount_append, keyCount_cons, if_pos h3]
    omega
  · intro k' hk'
    have hx : ¬ key x = k' := by rw [h3]; exact fun hc => hk' hc.symm
    rw [keyCount_append, keyCount_append, keyCount_cons, if_neg hx]
    omega

theorem matchRemovals_fst_count {κ : Type} [DecidableEq κ] (key : Deviation → κ) :
    ∀ (rs avail : List Deviation) (k : κ),
    keyCount key k (matchRemovals key rs avail).1 =
      keyCount key k rs - keyCount key k avail := by
  intro rs
  induction rs with
  | nil => intro avail k; simp [matchRemovals, keyCount]
  | cons r rs ih =>
    intro avail k
    rcases h : removeFirstMatch key (key r) avail with _ | avail2
    · have h0 : keyCount key (key r) avail = 0 := (removeFirstMatch_none_iff key _ avail).mp h
      simp only [matchRemovals, h]
      rw [keyCount_cons, keyCount_cons, ih]
      by_cases hk : key r = k
      · subst hk
        simp [h0]
      · simp [hk]
    · obtain ⟨hc1, hc2, _⟩ := removeFirstMatch_some_counts h
      simp only [matchRemovals, h]
      rw [ih, keyCount_cons]
      by_cases hk : key r = k
      · subst hk
        rw [hc1]
        have hif : (if key r = key r then 1 else 0) = 1 := if_pos rfl
        rw [hif]
        omega
      · rw [hc2 k (fun hc => hk hc.symm)]
        simp [hk]

theorem matchRemovals_snd_count {κ : Type} [DecidableEq κ] (key : Deviation → κ) :
    ∀ (rs avail : List Deviation) (k : κ),
    keyCount key k (matchRemovals key rs avail).2 =
      keyCount key k avail - keyCount key k rs := by
  intro rs
  induction rs with
  | nil => intro avail k; simp [matchRemovals, keyCount]
  | cons r rs ih =>
    intro avail k
    rcases h : removeFirstMatch key (key r) avail with _ | avail2
    · have h0 : keyCount key (key r) avail = 0 := (removeFirstMatch_none_iff key _ avail).mp h
      simp only [matchRemovals, h]
      rw [ih, keyCount_cons]
      by_cases hk : key r = k
      · subst hk
        simp [h0]
      · simp [hk]
    · obtain ⟨hc1, hc2, _⟩ := removeFirstMatch_some_counts h
      simp only [matchRemovals, h]
      rw [ih, keyCount_cons]
      by_cases hk : key r = k
      · subst hk
        rw [hc1]
        have hif : (if key r = key r then 1 else 0) = 1 := if_pos rfl
        rw [hif]
        omega
      · rw [hc2 k (fun hc => hk hc.symm)]
        simp [hk]

theorem matchRemovals_fst_sublist {κ : Type} [DecidableEq κ] (key : Deviation → κ) :
    ∀ (rs avail : List Deviation), (matchRemovals key rs avail).1.Sublist rs := by
  intro rs
  induction rs with
  | nil => intro avail; simp [matchRemovals]
  | cons r rs ih =>
    intro avail
    rcases h : removeFirstMatch key (key r) avail with _ | avail2
    · simpa [matchRemovals, h] using (ih avail).cons₂ r
    · simpa [matchRemovals, h] using (ih avail2).cons r

theorem matchRemovals_snd_sublist {κ : Type} [DecidableEq κ] (key : Deviation → κ) :
    ∀ (rs avail : List Deviation), (matchRemovals key rs avail).2.Sublist avail := by
  intro rs
  induction rs with
  | nil => intro avail; simp [matchRemovals]
  | cons r rs ih =>
    intro avail
    rcases h : removeFirstMatch key (key r) avail with _ | avail2
    · simpa [matchRemovals, h] using ih avail
    · have hsub := (removeFirstMatch_some_counts h).2.2
      simpa [matchRemovals, h] using (ih avail2).trans hsub

theorem eq_nil_of_keyCount_zero {κ : Type} [DecidableEq κ] (key : Deviation → κ)
    {l : List Deviation} (h : ∀ k, keyCount key k l = 0) : l = [] := by
  cases l with
  | nil => rfl
  | cons d rest =>
    have h0 := h (key d)
    have h1 : 0 < keyCount key (key d) (d :: rest) :=
      keyCount_pos_of_mem key (List.mem_cons_self d rest)
    omega

/-! The AST node model.  An acorn node is a tagged record: a `type` string,
`start`/`end` character offsets, and an open set of named fields.  A field
value is one of the four runtime shapes the comparator distinguishes: a
primitive scalar, a child node, an array of nodes-or-nulls, or an array of
primitives (`null` in a field is the scalar `Prim.null`; a JS field can also
be `undefined`, `Prim.undef`). -/

/-- JS primitive values occurring in AST fields.  Numbers carry an `Int`
(numeric literal values are only ever tested with `typeof`, never compared);
a regex literal's `value` is a `RegExp` object, opaque to every code path
that is reachable for it. -/
inductive Prim where
  | str (s : String)
  | num (n : Int)
  | bool (b : Bool)
  | null
  | undef
  | regex (source flags : String)
deriving DecidableEq, Repr

mutual
/-- An acorn AST node: `type`, `start`, `end` (here `stop`), named fields.
Positional/metadata entries (`loc`, `range`, `raw`, comments, `extra`) live in
`fields` like everything else and are screened out by `keysToIgnore`. -/
inductive Node where
  | mk (type : String) (start : Nat) (stop : Nat) (fields : List (String × FieldVal))

/-- The four runtime shapes of a field value. -/
inductive FieldVal where
  | scalar (p : Prim)
  | child (n : Node)
  | childList (items : List (Option Node))
  | scalarList (items : List Prim)
end

def Node.type : Node → String
  | .mk t _ _ _ => t

def Node.start : Node → Nat
  | .mk _ s _ _ => s

def Node.stop : Node → Nat
  | .mk _ _ e _ => e

def Node.fields : Node → List (String × FieldVal)
  | .mk _ _ _ fs => fs

/-- The `keysToIgnore` set of `compareASTs` (the `type`/`start`/`end` entries
are structure fields in this embedding, but the names stay in the list so the
filter matches the source). -/
def keysToIgnore : List String :=
  ["type", "start", "end", "loc", "range", "raw", "comments",
   "leadingComments", "trailingComments", "innerComments", "extra"]

/-- `Object.keys(node)[key]` lookup; an absent key reads as JS `undefined`. -/
def lookupField : List (String × FieldVal) → String → FieldVal
  | [], _ => FieldVal.scalar Prim.undef
  | (k', v) :: rest, k => if k' = k then v else lookupField rest k

/-- `(node as any)[key]`. -/
def getField (n : Node) (k : String) : FieldVal := lookupField n.fields k

/-- `Object.keys(node).filter(k => !keysToIgnore.has(k))`, paired with the
field values (object key order is the insertion order of the fields list; a
JS object cannot carry duplicate keys, so pairing keys with their values is
the same as looking each key up). -/
def sigFields (n : Node) : List (String × FieldVal) :=
  n.fields.filter (fun kv => !(keysToIgnore.contains kv.1))

def sigKeys (n : Node) : List String := (sigFields n).map Prod.fst

/-- `isNode(v)`: the value is an object with `type`/`start`/`end`. -/
def isNodeV : FieldVal → Bool
  | .child _ => true
  | _ => false

/-- `isNodeArray(v)`: `Array.isArray(v) && v.every(item => item === null ||
isNode(item))`.  An empty array of either shape qualifies (`[].every` is
`true`). -/
def isNodeArrayV : FieldVal → Bool
  | .childList _ => true
  | .scalarList ps => ps.isEmpty
  | _ => false

/-- `Array.isArray(v)`. -/
def isArrayV : FieldVal → Bool
  | .childList _ => true
  | .scalarList _ => true
  | _ => false

/-- The node recursed into for a field (`isNode(val) ? val : null`). -/
def asNode : FieldVal → Option Node
  | .child n => some n
  | _ => none

/-- The element list recursed into when both sides are node arrays (an empty
non-node array passes `isNodeArray` and iterates zero elements). -/
def asNodeList : FieldVal → List (Option Node)
  | .childList xs => xs
  | _ => []

/-- `val1.length === val2.length && JSON.stringify(val1) === JSON.stringify(val2)`
for the non-node-array branch: only two primitive arrays with equal contents
render to the same JSON there (a node array never reaches this branch paired
with another node array, and arrays of objects never stringify equal to
arrays of primitives). -/
def nonNodeArraysEqual : FieldVal → FieldVal → Bool
  | .scalarList ps1, .scalarList ps2 => ps1 == ps2
  | _, _ => false

/-- `val1 === val2` for the shapes reaching the last branch (at least one
side a scalar): JS primitive equality; a primitive never equals an object. -/
def fieldValPrimEq : FieldVal → FieldVal → Bool
  | .scalar p1, .scalar p2 => p1 == p2
  | _, _ => false

/-- JS `String(p)` / template interpolation of a primitive. -/
def primToString : Prim → String
  | .str s => s
  | .num n => toString n
  | .bool b => if b then "true" else "false"
  | .null => "null"
  | .undef => "undefined"
  | .regex source flags => "/" ++ source ++ "/" ++ flags

/-- An array element under `Array.prototype.join`: `null`/`undefined` render
as the empty string. -/
def primToJoinElem : Prim → String
  | .null => ""
  | .undef => ""
  | p => primToString p

/-- Template interpolation `${val}` of a field value (arrays join with `,`,
objects render `[object Object]`). -/
def fieldValToString : FieldVal → String
  | .scalar p => primToString p
  | .scalarList ps => String.intercalate "," (ps.map primToJoinElem)
  | .childList xs =>
    String.intercalate "," (xs.map (fun x => match x with
      | none => ""
      | some _ => "[object Object]"))
  | .child _ => "[object Object]"

/-- `getNodeDescription` from src/ast/utils.ts. -/
def getNodeDescription : Option Node → Option String
  | none => none
  | some node =>
    some (
      if node.type = "Identifier" then
        "Identifier: " ++ fieldValToString (getField node "name")
      else if node.type = "Literal" then
        "Literal: " ++ fieldValToString (getField node "raw")
      else if node.type = "FunctionDeclaration" ∨ node.type = "FunctionExpression" ∨
          node.type = "ArrowFunctionExpression" then
        node.type ++ (match getField node "id" with
          | FieldVal.child idNode => " " ++ fieldValToString (getField idNode "name")
          | _ => "")
      else if node.type = "VariableDeclarator" then
        "Variable: " ++ (match getField node "id" with
          | FieldVal.child idNode =>
            if idNode.type = "Identifier" then fieldValToString (getField idNode "name")
            else "[complex pattern]"
          | _ => "[complex pattern]")
      else if node.type = "CallExpression" then
        "Call: " ++ (match getField node "callee" with
          | FieldVal.child c =>
            if c.type = "Identifier" then fieldValToString (getField c "name")
            else if c.type = "MemberExpression" then "[member access]"
            else "[complex callee]"
          | _ => "[complex callee]") ++ "()"
      else node.type)

/-- The removal emitted for a present/mismatched node. -/
def removalOf (n : Node) : Deviation :=
  { type := DevType.removal, start := n.start, stop := n.stop, nodeType := n.type,
    description := getNodeDescription (some n) }

/-- The addition emitted for a present/mismatched node. -/
def additionOf (n : Node) : Deviation :=
  { type := DevType.addition, start := n.start, stop := n.stop, nodeType := n.type,
    description := getNodeDescription (some n) }

/-- `` `Literal: ${lit.raw}` ``. -/
def litDesc (n : Node) : String := "Literal: " ++ fieldValToString (getField n "raw")

def literalRemoval (n : Node) : Deviation :=
  { type := DevType.removal, start := n.start, stop := n.stop, nodeType := n.type,
    description := some (litDesc n) }

def literalAddition (n : Node) : Deviation :=
  { type := DevType.addition, start := n.start, stop := n.stop, nodeType := n.type,
    description := some (litDesc n) }

/-- `` `Keys changed: ${keys.join()}` `` (default `,` separator). -/
def keysChangedDesc (n : Node) : String :=
  "Keys changed: " ++ String.intercalate "," (sigKeys n)

def keysChangedRemoval (n : Node) : Deviation :=
  { type := DevType.removal, start := n.start, stop := n.stop, nodeType := n.type,
    description := some (keysChangedDesc n) }

def keysChangedAddition (n : Node) : Deviation :=
  { type := DevType.addition, start := n.start, stop := n.stop, nodeType := n.type,
    description := some (keysChangedDesc n) }

def arrayChangedRemoval (n : Node) (key : String) : Deviation :=
  { type := DevType.removal, start := n.start, stop := n.stop, nodeType := n.type,
    description := some ("Non-node array changed in key \x27" ++ key ++ "\x27") }

def arrayChangedAddition (n : Node) (key : String) : Deviation :=
  { type := DevType.addition, start := n.start, stop := n.stop, nodeType := n.type,
    description := some ("Non-node array changed in key \x27" ++ key ++ "\x27") }

def propertyChangedRemoval (n : Node) (key : String) (v : FieldVal) : Deviation :=
  { type := DevType.removal, start := n.start, stop := n.stop, nodeType := n.type,
    description :=
      some ("Property \x27" ++ key ++ "\x27 changed from \x27" ++ fieldValToString v ++ "\x27") }

def propertyChangedAddition (n : Node) (key : String) (v : FieldVal) : Deviation :=
  { type := DevType.addition, start := n.start, stop := n.stop, nodeType := n.type,
    description :=
      some ("Property \x27" ++ key ++ "\x27 changed to \x27" ++ fieldValToString v ++ "\x27") }

/-- `typeof lit.value === 'string'` refined to the string itself. -/
def strVal : FieldVal → Option String
  | .scalar (.str s) => some s
  | _ => none

/-- The Literal rule's test:
`isString1 !== isString2 || (isString1 && lit1.value !== lit2.value)`. -/
def literalMismatch (v1 v2 : FieldVal) : Bool :=
  match strVal v1, strVal v2 with
  | some s1, some s2 => !(s1 == s2)
  | none, none => false
  | _, _ => true

/-- The significant-key-set agreement test (negation of
`keys1.length !== keys2.length || !keys1.every(k => keySet2.has(k)) ||
!keys2.every(k => keySet1.has(k))`). -/
def keysMatch (n1 n2 : Node) : Bool :=
  (sigKeys n1).length == (sigKeys n2).length &&
  (sigKeys n1).all (fun k => (sigKeys n2).contains k) &&
  (sigKeys n2).all (fun k => (sigKeys n1).contains k)

/-! Size lemmas used for the comparator's termination. -/

theorem sizeOf_fields_lt (n : Node) : sizeOf n.fields < sizeOf n := by
  cases n with
  | mk t s e fs => simp [Node.fields]

theorem sizeOf_asNode_le (v : FieldVal) : sizeOf (asNode v) ≤ sizeOf v := by
  cases v <;> simp [asNode]

theorem sizeOf_asNodeList_le (v : FieldVal) : sizeOf (asNodeList v) ≤ sizeOf v := by
  cases v <;> simp [asNodeList]

theorem sizeOf_asNode_lookupField_le :
    ∀ (fs : List (String × FieldVal)) (k : String),
    sizeOf (asNode (lookupField fs k)) ≤ sizeOf fs := by
  intro fs
  induction fs with
  | nil => intro k; simp [lookupField, asNode]
  | cons e rest ih =>
    intro k
    obtain ⟨k', v⟩ := e
    by_cases h : k' = k
    · rw [lookupField, if_pos h]
      have h1 := sizeOf_asNode_le v
      simp
      omega
    · rw [lookupField, if_neg h]
      have h1 := ih k
      simp
      omega

theorem sizeOf_asNodeList_lookupField_le :
    ∀ (fs : List (String × FieldVal)) (k : String),
    sizeOf (asNodeList (lookupField fs k)) ≤ sizeOf fs := by
  intro fs
  induction fs with
  | nil => intro k; simp [lookupField, asNodeList]
  | cons e rest ih =>
    intro k
    obtain ⟨k', v⟩ := e
    by_cases h : k' = k
    · rw [lookupField, if_pos h]
      have h1 := sizeOf_asNodeList_le v
      simp
      omega
    · rw [lookupField, if_neg h]
      have h1 := ih k
      simp
      omega

theorem sizeOf_asNode_getField_lt (n : Node) (k : String) :
    sizeOf (asNode (getField n k)) < sizeOf n := by
  have h1 := sizeOf_asNode_lookupField_le n.fields k
  have h2 := sizeOf_fields_lt n
  rw [getField]
  omega

theorem sizeOf_asNodeList_getField_lt (n : Node) (k : String) :
    sizeOf (asNodeList (getField n k)) < sizeOf n := by
  have h1 := sizeOf_asNodeList_lookupField_le n.fields k
  have h2 := sizeOf_fields_lt n
  rw [getField]
  omega

theorem sizeOf_filter_le {α : Type} [SizeOf α] (p : α → Bool) :
    ∀ (l : List α), sizeOf (l.filter p) ≤ sizeOf l := by
  intro l
  induction l with
  | nil => simp
  | cons a rest ih =>
    rw [List.filter_cons]
    by_cases h : p a
    · rw [if_pos h]
      simp
      omega
    · rw [if_neg h]
      simp
      omega

theorem sizeOf_sigFields_lt (n : Node) : sizeOf (sigFields n) < sizeOf n := by
  have h1 := sizeOf_filter_le (fun kv : String × FieldVal => !(keysToIgnore.contains kv.1)) n.fields
  have h2 := sizeOf_fields_lt n
  rw [sigFields]
  omega

mutual

/-- `compareASTs` from src/ast/compare.ts. -/
def compareASTs : Option Node → Option Node → List Deviation
  | none, some n2 => [additionOf n2]
  | some n1, none => [removalOf n1]
  | none, none => []
  | some n1, some n2 =>
    if ¬ n1.type = n2.type then
      [removalOf n1, additionOf n2]
    else if n1.type = "Identifier" then
      []
    else if n1.type = "Literal" then
      if literalMismatch (getField n1 "value") (getField n2 "value") then
        [literalRemoval n1, literalAddition n2]
      else
        []
    else if keysMatch n1 n2 then
      filterMoves (compareFields n1 n2 (sigFields n1))
    else
      [keysChangedRemoval n1, keysChangedAddition n2]
termination_by o1 o2 => sizeOf o1 + sizeOf o2
decreasing_by
  all_goals simp_wf
  all_goals
    have h1 := sizeOf_sigFields_lt n1
    omega

/-- The `for (const key of keys1)` loop: accumulate child deviations, and on
the first primitive/non-node-array mismatch emit the parent pair and stop
(the caller applies `filterMoves` to whatever was accumulated, exactly as the
source does on both the early and the final return). -/
def compareFields (n1 n2 : Node) : List (String × FieldVal) → List Deviation
  | [] => []
  | (key, val1) :: rest =>
    let val2 := getField n2 key
    if isNodeV val1 || isNodeV val2 then
      compareASTs (asNode val1) (asNode val2) ++ compareFields n1 n2 rest
    else if isNodeArrayV val1 && isNodeArrayV val2 then
      compareChildren (asNodeList val1) (asNodeList val2) ++ compareFields n1 n2 rest
    else if isArrayV val1 && isArrayV val2 then
      if nonNodeArraysEqual val1 val2 then
        compareFields n1 n2 rest
      else
        [arrayChangedRemoval n1 key, arrayChangedAddition n2 key]
    else if fieldValPrimEq val1 val2 then
      compareFields n1 n2 rest
    else
      [propertyChangedRemoval n1 key val1, propertyChangedAddition n2 key val2]
termination_by l => sizeOf l + sizeOf n2
decreasing_by
  all_goals simp_wf
  all_goals
    first
    | (have h1 := sizeOf_asNode_le val1
       have h2 := sizeOf_asNode_getField_lt n2 key
       omega)
    | (have h1 := sizeOf_asNodeList_le val1
       have h2 := sizeOf_asNodeList_getField_lt n2 key
       omega)
    | omega

/-- Element-by-element comparison of two node arrays up to the longer length,
a missing trailing entry read as `null`; a position where both sides are
`null` is skipped. -/
def compareChildren : List (Option Node) → List (Option Node) → List Deviation
  | [], [] => []
  | c1 :: rest1, c2 :: rest2 =>
    (if c1.isSome || c2.isSome then compareASTs c1 c2 else []) ++ compareChildren rest1 rest2
  | c1 :: rest1, [] =>
    (if c1.isSome then compareASTs c1 none else []) ++ compareChildren rest1 []
  | [], c2 :: rest2 =>
    (if c2.isSome then compareASTs none c2 else []) ++ compareChildren [] rest2
termination_by l1 l2 => sizeOf l1 + sizeOf l2
decreasing_by
  all_goals simp_wf
  all_goals omega

end

/-! Well-formed trees: a JS object cannot carry two fields of the same name,
so every node's field names are duplicate-free (recursively). -/

mutual

inductive WFNode : Node → Prop where
  | mk : ∀ (t : String) (s e : Nat) (fs : List (String × FieldVal)),
      (fs.map Prod.fst).Nodup → (∀ kv ∈ fs, WFVal kv.2) → WFNode (Node.mk t s e fs)

inductive WFVal : FieldVal → Prop where
  | scalar : ∀ p, WFVal (FieldVal.scalar p)
  | scalarList : ∀ ps, WFVal (FieldVal.scalarList ps)
  | child : ∀ n, WFNode n → WFVal (FieldVal.child n)
  | childList : ∀ xs, (∀ x ∈ xs, ∀ c, x = some c → WFNode c) → WFVal (FieldVal.childList xs)

end

theorem lookupField_of_mem_nodup : ∀ {fs : List (String × FieldVal)} {k : String} {v : FieldVal},
    (fs.map Prod.fst).Nodup → (k, v) ∈ fs → lookupField fs k = v := by
  intro fs
  induction fs with
  | nil => intro k v _ h; simp at h
  | cons e rest ih =>
    intro k v hnd hm
    obtain ⟨ek, ev⟩ := e
    simp only [List.map_cons, List.nodup_cons] at hnd
    rcases List.mem_cons.mp hm with heq | hm
    · have hk : ek = k := by injection heq with h1 _; exact h1.symm
      have hv : ev = v := by injection heq with _ h2; exact h2.symm
      rw [lookupField, if_pos hk, hv]
    · by_cases hek : ek = k
      · exfalso
        subst hek
        exact hnd.1 (List.mem_map_of_mem Prod.fst hm)
      · rw [lookupField, if_neg hek]
        exact ih hnd.2 hm

theorem sizeOf_val_of_mem : ∀ {fs : List (String × FieldVal)} {k : String} {v : FieldVal},
    (k, v) ∈ fs → sizeOf v < sizeOf fs := by
  intro fs
  induction fs with
  | nil => intro k v h; simp at h
  | cons e rest ih =>
    intro k v h
    rcases List.mem_cons.mp h with heq | hm
    · subst heq
      simp
      omega
    · have h1 := ih hm
      simp
      omega

theorem literalMismatch_self (v : FieldVal) : literalMismatch v v = false := by
  rw [literalMismatch]
  cases h : strVal v <;> simp

theorem keysMatch_self (n : Node) : keysMatch n n = true := by
  have h : ∀ k ∈ sigKeys n, (sigKeys n).contains k = true := by
    intro k hk
    simpa using hk
  simp [keysMatch, List.all_eq_true, h]

theorem filterMoves_nil : filterMoves [] = [] := rfl

/-- Reflexivity of the child-array loop, given reflexivity for smaller
nodes. -/
theorem compareChildren_self (N : Nat)
    (ihout : ∀ (c : Node), sizeOf c ≤ N → WFNode c → compareASTs (some c) (some c) = []) :
    ∀ (xs : List (Option Node)), (∀ x ∈ xs, ∀ c, x = some c → WFNode c) →
      sizeOf xs ≤ N + 1 → compareChildren xs xs = [] := by
  intro xs
  induction xs with
  | nil => intro _ _; simp [compareChildren]
  | cons x rest ih =>
    intro hwf hsz
    have hszrest : sizeOf rest ≤ N + 1 := by
      simp at hsz
      omega
    have hrest : compareChildren rest rest = [] :=
      ih (fun y hy => hwf y (List.mem_cons_of_mem x hy)) hszrest
    cases x with
    | none => simpa [compareChildren] using hrest
    | some c =>
      have hc : WFNode c := hwf _ (List.mem_cons_self _ _) c rfl
      have hsc : sizeOf c ≤ N := by
        simp at hsz
        omega
      simp [compareChildren, ihout c hsc hc, hrest]

/-- Reflexivity of the field loop, given reflexivity for smaller nodes. -/
theorem compareFields_self (N : Nat) (n : Node)
    (ihout : ∀ (c : Node), sizeOf c ≤ N → WFNode c → compareASTs (some c) (some c) = [])
    (hnd : (n.fields.map Prod.fst).Nodup) (hsz : sizeOf n ≤ N + 1) :
    ∀ (l : List (String × FieldVal)),
      (∀ kv ∈ l, kv ∈ n.fields) → (∀ kv ∈ l, WFVal kv.2) →
      compareFields n n l = [] := by
  intro l
  induction l with
  | nil => intro _ _; simp [compareFields]
  | cons kv rest ih =>
    intro hmem hwf
    obtain ⟨key, v⟩ := kv
    have hrest : compareFields n n rest = [] :=
      ih (fun y hy => hmem y (List.mem_cons_of_mem _ hy))
         (fun y hy => hwf y (List.mem_cons_of_mem _ hy))
    have hv2 : getField n key = v :=
      lookupField_of_mem_nodup hnd (hmem _ (List.mem_cons_self _ _))
    have hvin : (key, v) ∈ n.fields := hmem _ (List.mem_cons_self _ _)
    have hszv : sizeOf v < sizeOf n := by
      have h1 := sizeOf_val_of_mem hvin
      have h2 := sizeOf_fields_lt n
      omega
    have hwfv : WFVal v := hwf _ (List.mem_cons_self _ _)
    cases v with
    | scalar p =>
      simp [compareFields, hv2, isNodeV, isNodeArrayV, isArrayV, fieldValPrimEq, hrest]
    | child c =>
      have hszc : sizeOf c ≤ N := by
        simp at hszv
        omega
      have hwfc : WFNode c := by
        cases hwfv with
        | child _ h => exact h
      simp [compareFields, hv2, isNodeV, asNode, ihout c hszc hwfc, hrest]
    | childList xs =>
      have hszxs : sizeOf xs ≤ N + 1 := by
        simp at hszv
        omega
      have hwfxs : ∀ x ∈ xs, ∀ c, x = some c → WFNode c := by
        cases hwfv with
        | childList _ h => exact h
      simp [compareFields, hv2, isNodeV, isNodeArrayV, asNodeList,
        compareChildren_self N ihout xs hwfxs hszxs, hrest]
    | scalarList ps =>
      cases ps with
      | nil =>
        simp [compareFields, hv2, isNodeV, isNodeArrayV, asNodeList, List.isEmpty,
          compareChildren, hrest]
      | cons p ps =>
        simp [compareFields, hv2, isNodeV, isNodeArrayV, isArrayV, List.isEmpty,
          nonNodeArraysEqual, hrest]

/-- Reflexivity: comparing a well-formed tree against (a structural duplicate
of) itself yields no deviations, by strong induction on the node size. -/
theorem compareASTs_self : ∀ (N : Nat) (n : Node), sizeOf n ≤ N → WFNode n →
    compareASTs (some n) (some n) = [] := by
  intro N
  induction N with
  | zero =>
    intro n hs _
    exfalso
    cases n with
    | mk t s e fs =>
      simp at hs
  | succ N ih =>
    intro n hs hwf
    have hnd : (n.fields.map Prod.fst).Nodup := by
      cases hwf with
      | mk t s e fs hnd0 _ => simpa [Node.fields] using hnd0
    have hfv : ∀ kv ∈ n.fields, WFVal kv.2 := by
      cases hwf with
      | mk t s e fs _ hfv0 => simpa [Node.fields] using hfv0
    rw [compareASTs]
    rw [if_neg (by simp)]
    by_cases hid : n.type = "Identifier"
    · rw [if_pos hid]
    · rw [if_neg hid]
      by_cases hlit : n.type = "Literal"
      · rw [if_pos hlit, literalMismatch_self]
        simp
      · rw [if_neg hlit, if_pos (keysMatch_self n)]
        rw [compareFields_self N n ih hnd hs (sigFields n)
          (fun kv hkv => List.mem_of_mem_filter hkv)
          (fun kv hkv => hfv kv (List.mem_of_mem_filter hkv))]
        rfl

/-- Reflexivity at the node size itself. -/
theorem compareASTs_refl (n : Node) (h : WFNode n) : compareASTs (some n) (some n) = [] :=
  compareASTs_self (sizeOf n) n (Nat.le_refl _) h

/-! Claim theorems for the null, kind-mismatch, literal and key-set rules. -/

/-- C7: for a non-null node `n`, `compareASTs null n` is exactly one addition
carrying `n`'s kind, offsets and description; `compareASTs n null` is exactly
one removal carrying the same data; `compareASTs null null` is empty.  No
child of `n` contributes anything. -/
theorem c7_null_cases (n : Node) :
    compareASTs none (some n) =
      [{ type := DevType.addition, start := n.start, stop := n.stop, nodeType := n.type,
         description := getNodeDescription (some n) }] ∧
    compareASTs (some n) none =
      [{ type := DevType.removal, start := n.start, stop := n.stop, nodeType := n.type,
         description := getNodeDescription (some n) }] ∧
    compareASTs none none = ([] : List Deviation) := by
  refine ⟨?_, ?_, ?_⟩ <;> simp [compareASTs, additionOf, removalOf]

/-- C3: two non-null nodes with different kind tags compare to exactly one
removal for the left node followed by one addition for the right node,
with no contribution from either node's descendants. -/
theorem c3_kind_mismatch (n1 n2 : Node) (h : ¬ n1.type = n2.type) :
    compareASTs (some n1) (some n2) =
      [{ type := DevType.removal, start := n1.start, stop := n1.stop, nodeType := n1.type,
         description := getNodeDescription (some n1) },
       { type := DevType.addition, start := n2.start, stop := n2.stop, nodeType := n2.type,
         description := getNodeDescription (some n2) }] := by
  rw [compareASTs, if_pos h]
  rfl

/-- C3 witness: a flat node of kind `X` against a deep tree of kind `Y`. -/
theorem c3_kind_mismatch_witness :
    compareASTs (some (Node.mk "X" 0 1 []))
      (some (Node.mk "Y" 2 9 [("body", FieldVal.childList
        [some (Node.mk "Literal" 3 8 [("value", FieldVal.scalar (Prim.str "deep")),
                                      ("raw", FieldVal.scalar (Prim.str "_deep_"))])])])) =
      [{ type := DevType.removal, start := 0, stop := 1, nodeType := "X",
         description := some "X" },
       { type := DevType.addition, start := 2, stop := 9, nodeType := "Y",
         description := some "Y" }] :=
  c3_kind_mismatch _ _ (by decide)

/-- C4: literal nodes compare only by textual value: both non-string, or both
the same string, gives no deviation; a string on exactly one side, or two
different strings, gives exactly the removal/addition pair described by the
literals' rendered (`raw`) forms, with no recursion into children. -/
theorem c4_literal (n1 n2 : Node) (h1 : n1.type = "Literal") (h2 : n2.type = "Literal") :
    ((strVal (getField n1 "value")) = none ∧ (strVal (getField n2 "value")) = none →
      compareASTs (some n1) (some n2) = []) ∧
    (∀ s, strVal (getField n1 "value") = some s ∧ strVal (getField n2 "value") = some s →
      compareASTs (some n1) (some n2) = []) ∧
    (((strVal (getField n1 "value")).isSome ≠ (strVal (getField n2 "value")).isSome ∨
      (∃ s1 s2, strVal (getField n1 "value") = some s1 ∧
        strVal (getField n2 "value") = some s2 ∧ ¬ s1 = s2)) →
      compareASTs (some n1) (some n2) = [literalRemoval n1, literalAddition n2]) := by
  have hbase : compareASTs (some n1) (some n2) =
      if literalMismatch (getField n1 "value") (getField n2 "value") then
        [literalRemoval n1, literalAddition n2]
      else [] := by
    rw [compareASTs, if_neg (by simp [h1, h2]), if_neg (by simp [h1]), if_pos h1]
  refine ⟨?_, ?_, ?_⟩
  · rintro ⟨hv1, hv2⟩
    rw [hbase, literalMismatch, hv1, hv2]
    rfl
  · rintro s ⟨hv1, hv2⟩
    rw [hbase, literalMismatch, hv1, hv2]
    simp
  · intro hmis
    rw [hbase, literalMismatch]
    rcases hmis with hne | ⟨s1, s2, hv1, hv2, hne⟩
    · rcases hv1 : strVal (getField n1 "value") with _ | s1 <;>
        rcases hv2 : strVal (getField n2 "value") with _ | s2 <;>
        simp [hv1, hv2] at hne ⊢
    · rw [hv1, hv2]
      simp [hne]

/-- String literal `"a"` as parsed. -/
def wLitA : Node :=
  Node.mk "Literal" 0 3 [("value", FieldVal.scalar (Prim.str "a")),
                         ("raw", FieldVal.scalar (Prim.str "_a_"))]

/-- String literal `"b"` as parsed. -/
def wLitB : Node :=
  Node.mk "Literal" 0 3 [("value", FieldVal.scalar (Prim.str "b")),
                         ("raw", FieldVal.scalar (Prim.str "_b_"))]

/-- C4 witness: the string-content change `"a"` to `"b"`. -/
theorem c4_literal_witness :
    compareASTs (some wLitA) (some wLitB) =
      [{ type := DevType.removal, start := 0, stop := 3, nodeType := "Literal",
         description := some "Literal: _a_" },
       { type := DevType.addition, start := 0, stop := 3, nodeType := "Literal",
         description := some "Literal: _b_" }] :=
  (c4_literal wLitA wLitB rfl rfl).2.2 (Or.inr ⟨"a", "b", rfl, rfl, by decide⟩)

/-- C6: same-kind non-Identifier non-Literal nodes whose significant field
name sets differ in membership compare to exactly the removal/addition pair
naming the two field sets, with no contribution from children. -/
theorem c6_keys_mismatch (n1 n2 : Node) (heq : n1.type = n2.type)
    (hid : ¬ n1.type = "Identifier") (hlit : ¬ n1.type = "Literal")
    (hmem : ¬ (∀ k, k ∈ sigKeys n1 ↔ k ∈ sigKeys n2)) :
    compareASTs (some n1) (some n2) =
      [{ type := DevType.removal, start := n1.start, stop := n1.stop, nodeType := n1.type,
         description := some ("Keys changed: " ++ String.intercalate "," (sigKeys n1)) },
       { type := DevType.addition, start := n2.start, stop := n2.stop, nodeType := n2.type,
         description := some ("Keys changed: " ++ String.intercalate "," (sigKeys n2)) }] := by
  have hkm : ¬ keysMatch n1 n2 = true := by
    intro hk
    apply hmem
    simp only [keysMatch, Bool.and_eq_true, List.all_eq_true, beq_iff_eq] at hk
    intro k
    constructor
    · intro hmem1
      have := hk.1.2 k hmem1
      simpa using this
    · intro hmem2
      have := hk.2 k hmem2
      simpa using this
  rw [compareASTs, if_neg (by simp [heq]), if_neg hid, if_neg hlit, if_neg hkm]
  rfl

/-- C6 witness: a node gaining an optional `flag` field, children identical. -/
theorem c6_keys_mismatch_witness :
    compareASTs
      (some (Node.mk "Decl" 0 5 [("body", FieldVal.child (Node.mk "Identifier" 1 2
        [("name", FieldVal.scalar (Prim.str "x"))]))]))
      (some (Node.mk "Decl" 0 6 [("body", FieldVal.child (Node.mk "Identifier" 1 2
        [("name", FieldVal.scalar (Prim.str "x"))])),
        ("flag", FieldVal.scalar (Prim.bool true))])) =
      [{ type := DevType.removal, start := 0, stop := 5, nodeType := "Decl",
         description := some "Keys changed: body" },
       { type := DevType.addition, start := 0, stop := 6, nodeType := "Decl",
         description := some "Keys changed: body,flag" }] :=
  c6_keys_mismatch _ _ rfl (by decide) (by decide)
    (fun hall => absurd ((hall "flag").2 (by decide)) (by decide))

/-- C8: comparing a well-formed tree with a structural duplicate of itself
(the same tree value) yields the empty deviation list. -/
theorem c8_reflexivity (n : Node) (h : WFNode n) : compareASTs (some n) (some n) = [] :=
  compareASTs_refl n h

/-- C8 witness: a small well-formed tree with a child node, a child list and
scalar fields. -/
theorem c8_reflexivity_witness :
    compareASTs
      (some (Node.mk "Block" 0 9 [("kind", FieldVal.scalar (Prim.str "let")),
        ("id", FieldVal.child (Node.mk "Identifier" 1 2 [("name", FieldVal.scalar (Prim.str "v"))])),
        ("body", FieldVal.childList [none, some (Node.mk "Literal" 3 4
          [("value", FieldVal.scalar (Prim.num 5)), ("raw", FieldVal.scalar (Prim.str "5"))])])]))
      (some (Node.mk "Block" 0 9 [("kind", FieldVal.scalar (Prim.str "let")),
        ("id", FieldVal.child (Node.mk "Identifier" 1 2 [("name", FieldVal.scalar (Prim.str "v"))])),
        ("body", FieldVal.childList [none, some (Node.mk "Literal" 3 4
          [("value", FieldVal.scalar (Prim.num 5)), ("raw", FieldVal.scalar (Prim.str "5"))])])])) =
      [] := by
  apply c8_reflexivity
  refine WFNode.mk _ _ _ _ (by decide) ?_
  intro kv hkv
  simp only [List.mem_cons, List.not_mem_nil, or_false] at hkv
  rcases hkv with rfl | rfl | rfl
  · exact WFVal.scalar _
  · refine WFVal.child _ (WFNode.mk _ _ _ _ (by decide) ?_)
    intro kv2 hkv2
    simp only [List.mem_cons, List.not_mem_nil, or_false] at hkv2
    rcases hkv2 with rfl
    exact WFVal.scalar _
  · refine WFVal.childList _ ?_
    intro x hx c hc
    simp only [List.mem_cons, List.not_mem_nil, or_false] at hx
    rcases hx with rfl | rfl
    · simp at hc
    · cases hc
      refine WFNode.mk _ _ _ _ (by decide) ?_
      intro kv3 hkv3
      simp only [List.mem_cons, List.not_mem_nil, or_false] at hkv3
      rcases hkv3 with rfl | rfl <;> exact WFVal.scalar _

/-! C2: the reconciler against the spec's description.  The code's matching
key is the joined string `nodeType ++ "::" ++ description`, which conflates
distinct `(nodeKind, description)` pairs whenever the node kind itself
contains `"::"`; the claim as stated (matching on the pair) therefore fails
on such inputs, and holds with the joined key. -/

/-- C2 counterexample: a removal keyed `("a::", "")` is matched against an
addition keyed `("a", "::")` — different `(nodeKind, description)` pairs with
the same joined string — so `filterMoves` drops both, while the
pair-keyed reconciler the claim describes keeps both. -/
theorem c2_counterexample :
    filterMoves [⟨DevType.removal, 0, 1, "a::", none⟩, ⟨DevType.addition, 2, 3, "a", some "::"⟩]
      = [] ∧
    reconcile pairKey
      [⟨DevType.removal, 0, 1, "a::", none⟩, ⟨DevType.addition, 2, 3, "a", some "::"⟩]
      = [⟨DevType.removal, 0, 1, "a::", none⟩, ⟨DevType.addition, 2, 3, "a", some "::"⟩] ∧
    ¬ pairKey ⟨DevType.removal, 0, 1, "a::", none⟩ =
      pairKey ⟨DevType.addition, 2, 3, "a", some "::"⟩ := by
  refine ⟨by decide, by decide, by decide⟩

/-- C2 amended: `filterMoves` matches each removal, in original order,
against the first still-unconsumed addition with the identical joined key
`nodeType ++ "::" ++ (description or empty)`, drops every matched pair, and
returns surviving removals first then surviving additions, each side in its
original relative order — i.e. it equals the spec-shaped reconciler run with
the joined key. -/
theorem c2_filterMoves_as_reconciler (ds : List Deviation) :
    filterMoves ds = reconcile devKey ds :=
  filterMoves_eq_reconcile_devKey ds

/-! C10: the output of `filterMoves` is the input minus key-matched
removal/addition pairs. -/

/-- Two multisets with the same number of elements at every key can be listed
as key-matched pairs. -/
theorem exists_key_pairing :
    ∀ (n : Nat) (A B : Multiset Deviation), A.card = n →
    (∀ k, A.countP (fun d => devKey d = k) = B.countP (fun d => devKey d = k)) →
    ∃ pairs : List (Deviation × Deviation),
      A = ↑(pairs.map Prod.fst) ∧ B = ↑(pairs.map Prod.snd) ∧
      ∀ p ∈ pairs, devKey p.1 = devKey p.2 := by
  intro n
  induction n with
  | zero =>
    intro A B hcard hcnt
    have hA : A = 0 := Multiset.card_eq_zero.mp hcard
    have hB : B = 0 := by
      apply Multiset.eq_zero_of_forall_not_mem
      intro b hb
      have h1 : 0 < B.countP (fun d => devKey d = devKey b) :=
        Multiset.countP_pos.mpr ⟨b, hb, rfl⟩
      rw [← hcnt, hA] at h1
      simp at h1
    exact ⟨[], by simp [hA], by simp [hB], by simp⟩
  | succ n ih =>
    intro A B hcard hcnt
    obtain ⟨a, ha⟩ : ∃ a, a ∈ A := Multiset.card_pos_iff_exists_mem.mp (by omega)
    have hposB : 0 < B.countP (fun d => devKey d = devKey a) := by
      rw [← hcnt]
      exact Multiset.countP_pos.mpr ⟨a, ha, rfl⟩
    obtain ⟨b, hb, hkey⟩ := Multiset.countP_pos.mp hposB
    have hAe : a ::ₘ A.erase a = A := Multiset.cons_erase ha
    have hBe : b ::ₘ B.erase b = B := Multiset.cons_erase hb
    have hcard2 : (A.erase a).card = n := by
      have hc := congrArg Multiset.card hAe
      simp at hc
      omega
    have hcnt2 : ∀ k, (A.erase a).countP (fun d => devKey d = k) =
        (B.erase b).countP (fun d => devKey d = k) := by
      intro k
      have h1 := hcnt k
      rw [← hAe, ← hBe, Multiset.countP_cons, Multiset.countP_cons] at h1
      by_cases hk : devKey a = k
      · rw [if_pos hk, if_pos (hkey.trans hk)] at h1
        omega
      · rw [if_neg hk, if_neg (fun hc => hk (hkey ▸ hc))] at h1
        omega
    obtain ⟨pairs, hp1, hp2, hp3⟩ := ih (A.erase a) (B.erase b) hcard2 hcnt2
    refine ⟨(a, b) :: pairs, ?_, ?_, ?_⟩
    · rw [← hAe, hp1]
      simp
    · rw [← hBe, hp2]
      simp
    · intro p hp
      rcases List.mem_cons.mp hp with rfl | hp
      · exact hkey.symm
      · exact hp3 p hp

/-- The two halves of the removal/addition partition, as a multiset
identity. -/
theorem partition_coe (ds : List Deviation) :
    (↑ds : Multiset Deviation) =
      ↑(ds.filter (fun d => d.type == DevType.removal)) +
      ↑(ds.filter (fun d => d.type == DevType.addition)) := by
  have hperm : List.Perm (ds.filter (fun d => d.type == DevType.removal) ++
      ds.filter (fun d => d.type == DevType.addition)) ds := by
    have hswap : ds.filter (fun d => d.type == DevType.addition) =
        ds.filter (fun d => !(d.type == DevType.removal)) := by
      apply List.filter_congr
      intro d _
      cases d.type <;> rfl
    rw [hswap]
    exact List.filter_append_perm _ ds
  have := Multiset.coe_eq_coe.mpr hperm
  rw [← this]
  simp

/-- C10 amended: the output of `filterMoves` is always the input minus a list
of removal/addition pairs whose joined keys
`nodeType ++ "::" ++ (description or empty)` agree — so equally many
removals and additions are deleted, and every surviving difference is an
unmodified input element. -/
theorem c10_filterMoves_deletes_matched_pairs (ds : List Deviation) :
    ∃ pairs : List (Deviation × Deviation),
      (∀ p ∈ pairs, p.1.type = DevType.removal ∧ p.2.type = DevType.addition ∧
        devKey p.1 = devKey p.2) ∧
      (↑ds : Multiset Deviation) =
        ↑(filterMoves ds) + ↑(pairs.map Prod.fst) + ↑(pairs.map Prod.snd) := by
  have hrw : filterMoves ds = (matchRemovals devKey
      (ds.filter (fun d => d.type == DevType.removal))
      (ds.filter (fun d => d.type == DevType.addition))).1 ++
      (matchRemovals devKey (ds.filter (fun d => d.type == DevType.removal))
        (ds.filter (fun d => d.type == DevType.addition))).2 := by
    rw [filterMoves_eq_reconcile_devKey, reconcile]
  set removals := ds.filter (fun d => d.type == DevType.removal) with hremdef
  set additions := ds.filter (fun d => d.type == DevType.addition) with hadddef
  set survR := (matchRemovals devKey removals additions).1 with hsurvR
  set survA := (matchRemovals devKey removals additions).2 with hsurvA
  have hleR : (↑survR : Multiset Deviation) ≤ ↑removals := by
    exact_mod_cast (matchRemovals_fst_sublist devKey removals additions).subperm
  have hleA : (↑survA : Multiset Deviation) ≤ ↑additions := by
    exact_mod_cast (matchRemovals_snd_sublist devKey removals additions).subperm
  have hcnt : ∀ k, ((↑removals : Multiset Deviation) - ↑survR).countP (fun d => devKey d = k) =
      ((↑additions : Multiset Deviation) - ↑survA).countP (fun d => devKey d = k) := by
    intro k
    rw [Multiset.countP_sub _ hleR, Multiset.countP_sub _ hleA]
    rw [Multiset.coe_countP, Multiset.coe_countP, Multiset.coe_countP, Multiset.coe_countP]
    have h1 : survR.countP (fun d => decide (devKey d = k)) =
        keyCount devKey k removals - keyCount devKey k additions :=
      matchRemovals_fst_count devKey removals additions k
    have h2 : survA.countP (fun d => decide (devKey d = k)) =
        keyCount devKey k additions - keyCount devKey k removals :=
      matchRemovals_snd_count devKey removals additions k
    rw [h1, h2]
    rw [keyCount, keyCount]
    omega
  obtain ⟨pairs, hp1, hp2, hp3⟩ := exists_key_pairing
    ((↑removals - ↑survR : Multiset Deviation)).card _ _ rfl hcnt
  refine ⟨pairs, ?_, ?_⟩
  · intro p hp
    have hfst : p.1 ∈ (↑removals : Multiset Deviation) := by
      have hm : p.1 ∈ ((↑removals : Multiset Deviation) - ↑survR) := by
        rw [hp1]
        simp only [Multiset.mem_coe, List.mem_map]
        exact ⟨p, hp, rfl⟩
      exact Multiset.mem_of_le (tsub_le_self) hm
    have hsnd : p.2 ∈ (↑additions : Multiset Deviation) := by
      have hm : p.2 ∈ ((↑additions : Multiset Deviation) - ↑survA) := by
        rw [hp2]
        simp only [Multiset.mem_coe, List.mem_map]
        exact ⟨p, hp, rfl⟩
      exact Multiset.mem_of_le (tsub_le_self) hm
    refine ⟨?_, ?_, hp3 p hp⟩
    · have hfst2 : p.1 ∈ ds.filter (fun d => d.type == DevType.removal) := by
        rw [← hremdef]
        simpa using hfst
      have := (List.mem_filter.mp hfst2).2
      simpa using this
    · have hsnd2 : p.2 ∈ ds.filter (fun d => d.type == DevType.addition) := by
        rw [← hadddef]
        simpa using hsnd
      have := (List.mem_filter.mp hsnd2).2
      simpa using this
  · rw [partition_coe ds, hrw, ← hp1, ← hp2]
    have hR : (↑removals : Multiset Deviation) = ↑survR + (↑removals - ↑survR) := by
      rw [add_comm, tsub_add_cancel_of_le hleR]
    have hA : (↑additions : Multiset Deviation) = ↑survA + (↑additions - ↑survA) := by
      rw [add_comm, tsub_add_cancel_of_le hleA]
    calc (↑removals : Multiset Deviation) + ↑additions
        = (↑survR + (↑removals - ↑survR)) + (↑survA + (↑additions - ↑survA)) := by
          rw [← hR, ← hA]
      _ = (↑survR + ↑survA) + (↑removals - ↑survR) + (↑additions - ↑survA) := by
          simp only [add_comm, add_left_comm, add_assoc]
      _ = ↑(survR ++ survA) + (↑removals - ↑survR) + (↑additions - ↑survA) := by
          simp

/-- C10 counterexample: with pair keys, the claimed decomposition does not
exist for the `"::"`-collision input that `filterMoves` empties out. -/
theorem c10_counterexample :
    ¬ ∃ pairs : List (Deviation × Deviation),
      (∀ p ∈ pairs, p.1.type = DevType.removal ∧ p.2.type = DevType.addition ∧
        pairKey p.1 = pairKey p.2) ∧
      (↑[(⟨DevType.removal, 4, 5, "b::", none⟩ : Deviation),
         ⟨DevType.addition, 6, 7, "b", some "::"⟩] : Multiset Deviation) =
        ↑(filterMoves [⟨DevType.removal, 4, 5, "b::", none⟩,
                       ⟨DevType.addition, 6, 7, "b", some "::"⟩]) +
        ↑(pairs.map Prod.fst) + ↑(pairs.map Prod.snd) := by
  rintro ⟨pairs, hkeys, hdecomp⟩
  have hfm : filterMoves [(⟨DevType.removal, 4, 5, "b::", none⟩ : Deviation),
      ⟨DevType.addition, 6, 7, "b", some "::"⟩] = [] := by decide
  rw [hfm] at hdecomp
  have hmem : (⟨DevType.removal, 4, 5, "b::", none⟩ : Deviation) ∈
      (↑(pairs.map Prod.fst) : Multiset Deviation) + ↑(pairs.map Prod.snd) := by
    have h0 : (⟨DevType.removal, 4, 5, "b::", none⟩ : Deviation) ∈
        (↑[(⟨DevType.removal, 4, 5, "b::", none⟩ : Deviation),
           ⟨DevType.addition, 6, 7, "b", some "::"⟩] : Multiset Deviation) := by
      simp
    rw [hdecomp] at h0
    simpa using h0
  rw [Multiset.mem_add] at hmem
  rcases hmem with h | h
  · obtain ⟨p, hp, hp1⟩ : ∃ p ∈ pairs, Prod.fst p = ⟨DevType.removal, 4, 5, "b::", none⟩ := by
      simpa using h
    have hsnd : p.2 ∈ (↑[(⟨DevType.removal, 4, 5, "b::", none⟩ : Deviation),
        ⟨DevType.addition, 6, 7, "b", some "::"⟩] : Multiset Deviation) := by
      rw [hdecomp]
      have hin : p.2 ∈ (↑(pairs.map Prod.snd) : Multiset Deviation) := by
        simp only [Multiset.mem_coe, List.mem_map]
        exact ⟨p, hp, rfl⟩
      exact Multiset.mem_of_le (le_add_self) hin
    obtain ⟨ht1, ht2, hk⟩ := hkeys p hp
    simp only [Multiset.mem_coe, List.mem_cons, List.not_mem_nil, or_false] at hsnd
    rcases hsnd with h2 | h2
    · rw [h2] at ht2
      exact absurd ht2 (by decide)
    · rw [hp1, h2] at hk
      exact absurd hk (by decide)
  · obtain ⟨p, hp, hp2⟩ : ∃ p ∈ pairs, Prod.snd p = ⟨DevType.removal, 4, 5, "b::", none⟩ := by
      simpa using h
    obtain ⟨ht1, ht2, hk⟩ := hkeys p hp
    rw [hp2] at ht2
    exact absurd ht2 (by decide)

/-! C5: the early return on the first differing primitive scalar field. -/

/-- The deviations a single field contributes when the loop does not stop at
it: child recursion, node-array recursion, or nothing. -/
def fieldDiffs (n2 : Node) (kv : String × FieldVal) : List Deviation :=
  if isNodeV kv.2 || isNodeV (getField n2 kv.1) then
    compareASTs (asNode kv.2) (asNode (getField n2 kv.1))
  else if isNodeArrayV kv.2 && isNodeArrayV (getField n2 kv.1) then
    compareChildren (asNodeList kv.2) (asNodeList (getField n2 kv.1))
  else []

/-- Accumulated contributions of a run of fields. -/
def fieldDiffsAcc (n2 : Node) : List (String × FieldVal) → List Deviation
  | [] => []
  | kv :: rest => fieldDiffs n2 kv ++ fieldDiffsAcc n2 rest

/-- A field at which the loop keeps going (no early return): a node on either
side, a node array on both, an equal non-node array, or an equal primitive. -/
def nonStopping (n2 : Node) (kv : String × FieldVal) : Bool :=
  if isNodeV kv.2 || isNodeV (getField n2 kv.1) then true
  else if isNodeArrayV kv.2 && isNodeArrayV (getField n2 kv.1) then true
  else if isArrayV kv.2 && isArrayV (getField n2 kv.1) then
    nonNodeArraysEqual kv.2 (getField n2 kv.1)
  else fieldValPrimEq kv.2 (getField n2 kv.1)

/-- The field loop over a non-stopping prefix accumulates that prefix's
contributions and continues with the rest. -/
theorem compareFields_append (n1 n2 : Node) :
    ∀ (pre rest : List (String × FieldVal)), (∀ kv ∈ pre, nonStopping n2 kv = true) →
    compareFields n1 n2 (pre ++ rest) =
      fieldDiffsAcc n2 pre ++ compareFields n1 n2 rest := by
  intro pre
  induction pre with
  | nil => intro rest _; simp [fieldDiffsAcc]
  | cons kv pre ih =>
    intro rest hns
    obtain ⟨key, v⟩ := kv
    have hkv := hns _ (List.mem_cons_self _ _)
    have hrec := ih rest (fun y hy => hns y (List.mem_cons_of_mem _ hy))
    by_cases h1 : (isNodeV v || isNodeV (getField n2 key)) = true
    · rw [List.cons_append, compareFields]
      simp only [h1, if_true, hrec, fieldDiffsAcc, fieldDiffs, List.append_assoc]
    · by_cases h2 : (isNodeArrayV v && isNodeArrayV (getField n2 key)) = true
      · rw [List.cons_append, compareFields]
        simp only [h1, h2, if_true, if_false, Bool.false_eq_true, hrec, fieldDiffsAcc,
          fieldDiffs, List.append_assoc]
      · by_cases h3 : (isArrayV v && isArrayV (getField n2 key)) = true
        · have heq : nonNodeArraysEqual v (getField n2 key) = true := by
            rw [nonStopping] at hkv
            simpa [h1, h2, h3] using hkv
          rw [List.cons_append, compareFields]
          simp only [h1, h2, h3, heq, if_true, if_false, Bool.false_eq_true, hrec,
            fieldDiffsAcc, fieldDiffs]
          simp
        · have heq : fieldValPrimEq v (getField n2 key) = true := by
            rw [nonStopping] at hkv
            simpa [h1, h2, h3] using hkv
          rw [List.cons_append, compareFields]
          simp only [h1, h2, h3, heq, if_true, if_false, Bool.false_eq_true, hrec,
            fieldDiffsAcc, fieldDiffs]
          simp

/-- C5 amended: at the first differing primitive scalar field (all earlier
fields non-stopping), the comparator emits exactly one removal/addition pair
describing that field and both values, never examines the remaining fields
(`post` does not occur on the right-hand side), and hands the pair, together
with the deviations accumulated from the earlier fields, to the per-frame
move filter — accumulated deviations therefore remain unless cancelled as
moves.  The premise grants a second differing scalar field to mirror the
claim. -/
theorem c5_first_scalar_mismatch (n1 n2 : Node) (pre post : List (String × FieldVal))
    (key : String) (v1 v2 : Prim)
    (heq : n1.type = n2.type) (hid : ¬ n1.type = "Identifier") (hlit : ¬ n1.type = "Literal")
    (hkm : keysMatch n1 n2 = true)
    (hsplit : sigFields n1 = pre ++ (key, FieldVal.scalar v1) :: post)
    (hpre : ∀ kv ∈ pre, nonStopping n2 kv = true)
    (hv2 : getField n2 key = FieldVal.scalar v2)
    (hne : ¬ v1 = v2)
    (key2 : String) (w1 w2 : Prim)
    (hmem : (key2, FieldVal.scalar w1) ∈ post)
    (hw2 : getField n2 key2 = FieldVal.scalar w2) (hne2 : ¬ w1 = w2) :
    compareASTs (some n1) (some n2) =
      filterMoves (fieldDiffsAcc n2 pre ++
        [propertyChangedRemoval n1 key (FieldVal.scalar v1),
         propertyChangedAddition n2 key (FieldVal.scalar v2)]) := by
  rw [compareASTs, if_neg (by simp [heq]), if_neg hid, if_neg hlit, if_pos hkm, hsplit]
  rw [compareFields_append n1 n2 pre _ hpre]
  congr 2
  rw [compareFields]
  simp [hv2, isNodeV, isNodeArrayV, isArrayV, fieldValPrimEq, hne]

/-! Concrete material for the C5 counterexample: a parent whose first two
child fields contribute a removal and a matching addition (a literal moved
from field `a` to field `b`), followed by two differing scalar fields. -/

/-- The string literal `"s"` sitting in field `a` of the first tree. -/
def c5lit1 : Node :=
  Node.mk "Literal" 1 2 [("value", FieldVal.scalar (Prim.str "s")),
                         ("raw", FieldVal.scalar (Prim.str "_s_"))]

/-- The same literal, relocated (different offsets) in the second tree. -/
def c5lit2 : Node :=
  Node.mk "Literal" 5 6 [("value", FieldVal.scalar (Prim.str "s")),
                         ("raw", FieldVal.scalar (Prim.str "_s_"))]

def c5n1 : Node :=
  Node.mk "P" 0 9 [("a", FieldVal.child (Node.mk "Wrap" 1 2 [("v", FieldVal.child c5lit1)])),
                   ("b", FieldVal.child (Node.mk "Wrap" 3 4 [("v", FieldVal.scalar Prim.null)])),
                   ("op", FieldVal.scalar (Prim.str "+")),
                   ("flag", FieldVal.scalar (Prim.str "x"))]

def c5n2 : Node :=
  Node.mk "P" 0 9 [("a", FieldVal.child (Node.mk "Wrap" 1 2 [("v", FieldVal.scalar Prim.null)])),
                   ("b", FieldVal.child (Node.mk "Wrap" 3 4 [("v", FieldVal.child c5lit2)])),
                   ("op", FieldVal.scalar (Prim.str "-")),
                   ("flag", FieldVal.scalar (Prim.str "y"))]

/-- C5 counterexample: at `c5n1`/`c5n2` the fields `a` and `b` compared
before the scalar mismatch at `op` contribute a removal and an addition of
the literal `"s"`; the per-frame move filter cancels them against each other,
so the final result holds only the scalar pair — the differences accumulated
from earlier-compared fields do not remain in the result as the claim
states. -/
theorem c5_counterexample :
    fieldDiffsAcc c5n2 [("a", FieldVal.child (Node.mk "Wrap" 1 2 [("v", FieldVal.child c5lit1)])),
                        ("b", FieldVal.child (Node.mk "Wrap" 3 4 [("v", FieldVal.scalar Prim.null)]))] =
      [removalOf c5lit1, additionOf c5lit2] ∧
    compareASTs (some c5n1) (some c5n2) =
      [propertyChangedRemoval c5n1 "op" (FieldVal.scalar (Prim.str "+")),
       propertyChangedAddition c5n2 "op" (FieldVal.scalar (Prim.str "-"))] ∧
    ¬ removalOf c5lit1 ∈ compareASTs (some c5n1) (some c5n2) := by
  have h1 : fieldDiffsAcc c5n2
      [("a", FieldVal.child (Node.mk "Wrap" 1 2 [("v", FieldVal.child c5lit1)])),
       ("b", FieldVal.child (Node.mk "Wrap" 3 4 [("v", FieldVal.scalar Prim.null)]))] =
      [removalOf c5lit1, additionOf c5lit2] := by
    simp [fieldDiffsAcc, fieldDiffs, c5n1, c5n2, c5lit1, c5lit2, compareASTs, compareFields,
      getField, lookupField, Node.fields, Node.type, isNodeV, isNodeArrayV, isArrayV, asNode,
      asNodeList, sigFields, sigKeys, keysToIgnore, keysMatch, fieldValPrimEq, filterMoves,
      removalOf, additionOf, getNodeDescription, fieldValToString, primToString, Node.start,
      Node.stop, literalMismatch, strVal]
  have h2 : compareASTs (some c5n1) (some c5n2) =
      [propertyChangedRemoval c5n1 "op" (FieldVal.scalar (Prim.str "+")),
       propertyChangedAddition c5n2 "op" (FieldVal.scalar (Prim.str "-"))] := by
    simp [c5n1, c5n2, c5lit1, c5lit2, compareASTs, compareFields, compareChildren, getField,
      lookupField, Node.fields, Node.type, isNodeV, isNodeArrayV, isArrayV, asNode, asNodeList,
      sigFields, sigKeys, keysToIgnore, keysMatch, fieldValPrimEq, nonNodeArraysEqual,
      filterMoves, processRemovals, buildAdditionMap, mapGet, mapPush, mapSet, mapErase, devKey,
      removalOf, additionOf, getNodeDescription, fieldValToString, primToString,
      propertyChangedRemoval, propertyChangedAddition, Node.start, Node.stop,
      literalMismatch, strVal]
    all_goals decide
  refine ⟨h1, h2, ?_⟩
  rw [h2]
  decide

/-- C5 witness: instantiating the amended theorem at `c5n1`/`c5n2` with
`pre` the two child fields, the mismatch at `op` and the second differing
scalar at `flag`. -/
theorem c5_first_scalar_mismatch_witness :
    compareASTs (some c5n1) (some c5n2) =
      filterMoves (fieldDiffsAcc c5n2
        [("a", FieldVal.child (Node.mk "Wrap" 1 2 [("v", FieldVal.child c5lit1)])),
         ("b", FieldVal.child (Node.mk "Wrap" 3 4 [("v", FieldVal.scalar Prim.null)]))] ++
        [propertyChangedRemoval c5n1 "op" (FieldVal.scalar (Prim.str "+")),
         propertyChangedAddition c5n2 "op" (FieldVal.scalar (Prim.str "-"))]) :=
  c5_first_scalar_mismatch c5n1 c5n2
    [("a", FieldVal.child (Node.mk "Wrap" 1 2 [("v", FieldVal.child c5lit1)])),
     ("b", FieldVal.child (Node.mk "Wrap" 3 4 [("v", FieldVal.scalar Prim.null)]))]
    [("flag", FieldVal.scalar (Prim.str "x"))]
    "op" (Prim.str "+") (Prim.str "-")
    rfl (by decide) (by decide) (by decide) rfl
    (by intro kv hkv
        simp only [List.mem_cons, List.not_mem_nil, or_false] at hkv
        rcases hkv with rfl | rfl <;> rfl)
    rfl (by decide)
    "flag" (Prim.str "x") (Prim.str "y") (List.mem_cons_self _ _) rfl (by decide)

/-! C1: move cancellation over permuted child lists. -/

/-- Kind-mismatch equation (helper). -/
theorem compareASTs_swap (n1 n2 : Node) (h : ¬ n1.type = n2.type) :
    compareASTs (some n1) (some n2) = [removalOf n1, additionOf n2] := by
  rw [compareASTs, if_pos h]

/-- Literal-mismatch equation (helper). -/
theorem compareASTs_literal_pair (n1 n2 : Node) (h1 : n1.type = "Literal")
    (h2 : n2.type = "Literal")
    (hm : literalMismatch (getField n1 "value") (getField n2 "value") = true) :
    compareASTs (some n1) (some n2) = [literalRemoval n1, literalAddition n2] := by
  rw [compareASTs, if_neg (by simp [h1, h2]), if_neg (by simp [h1]), if_pos h1, if_pos hm]

/-- An addition and a removal for the same node carry the same matching
key. -/
theorem devKey_additionOf (n : Node) : devKey (additionOf n) = devKey (removalOf n) := rfl

/-- Reduction of the parent comparison when each side has a single
significant field holding a node array. -/
theorem compareASTs_single_childList (n1 n2 : Node) (k : String)
    (as bs : List (Option Node))
    (heq : n1.type = n2.type) (hid : ¬ n1.type = "Identifier") (hlit : ¬ n1.type = "Literal")
    (hsf1 : sigFields n1 = [(k, FieldVal.childList as)])
    (hsf2 : sigFields n2 = [(k, FieldVal.childList bs)])
    (hnd2 : (n2.fields.map Prod.fst).Nodup) :
    compareASTs (some n1) (some n2) = filterMoves (compareChildren as bs) := by
  have hget : getField n2 k = FieldVal.childList bs := by
    have hmem : (k, FieldVal.childList bs) ∈ n2.fields := by
      have hmem0 : (k, FieldVal.childList bs) ∈ sigFields n2 := by
        rw [hsf2]
        exact List.mem_cons_self _ _
      exact List.mem_of_mem_filter hmem0
    exact lookupField_of_mem_nodup hnd2 hmem
  have hkm : keysMatch n1 n2 = true := by
    simp [keysMatch, sigKeys, hsf1, hsf2]
  rw [compareASTs, if_neg (by simp [heq]), if_neg hid, if_neg hlit, if_pos hkm, hsf1]
  congr 1
  rw [compareFields]
  simp [hget, isNodeV, isNodeArrayV, asNodeList, compareFields]

/-- The child loop splits over length-matched prefixes. -/
theorem compareChildren_append :
    ∀ (u u2 xs ys : List (Option Node)), u.length = u2.length →
    compareChildren (u ++ xs) (u2 ++ ys) =
      compareChildren u u2 ++ compareChildren xs ys := by
  intro u
  induction u with
  | nil =>
    intro u2 xs ys hlen
    have h2 : u2 = [] := List.eq_nil_of_length_eq_zero hlen.symm
    subst h2
    simp [compareChildren]
  | cons x u ih =>
    intro u2 xs ys hlen
    cases u2 with
    | nil => simp at hlen
    | cons y u2 =>
      simp only [List.length_cons] at hlen
      rw [List.cons_append, List.cons_append, compareChildren, compareChildren,
        ih u2 xs ys (by omega)]
      simp [List.append_assoc]

/-- Number of present children of a given matching key. -/
def optKeyCount (k : String) (l : List (Option Node)) : Nat :=
  l.countP (fun x => match x with
    | some c => decide (devKey (removalOf c) = k)
    | none => false)

theorem optKeyCount_append (k : String) (l1 l2 : List (Option Node)) :
    optKeyCount k (l1 ++ l2) = optKeyCount k l1 + optKeyCount k l2 := by
  simp [optKeyCount, List.countP_append]

/-- The per-position relation of the cancellation claim: children at aligned
positions are either identical or both present with different kinds. -/
def MoveRel (x y : Option Node) : Prop :=
  x = y ∨ ∃ a b, x = some a ∧ y = some b ∧ ¬ a.type = b.type

/-- Well-formedness of a child slot. -/
def WFOpt (x : Option Node) : Prop := ∀ c, x = some c → WFNode c

/-- The counting core: per key, the removals and additions accumulated over a
`MoveRel`-aligned child pass balance against the two sides' own child keys,
and each side's deviations are bounded by its own child keys. -/
theorem compareChildren_counts :
    ∀ {as bs : List (Option Node)}, List.Forall₂ MoveRel as bs →
    (∀ x ∈ as, WFOpt x) → ∀ (k : String),
    keyCount devKey k ((compareChildren as bs).filter (fun d => d.type == DevType.removal)) +
      optKeyCount k bs =
    keyCount devKey k ((compareChildren as bs).filter (fun d => d.type == DevType.addition)) +
      optKeyCount k as ∧
    keyCount devKey k ((compareChildren as bs).filter (fun d => d.type == DevType.removal)) ≤
      optKeyCount k as ∧
    keyCount devKey k ((compareChildren as bs).filter (fun d => d.type == DevType.addition)) ≤
      optKeyCount k bs := by
  intro as bs hrel
  induction hrel with
  | nil =>
    intro _ k
    simp [compareChildren, keyCount, optKeyCount]
  | cons hxy htail ih =>
    rename_i x y as' bs'
    intro hwf k
    obtain ⟨ihbal, ihb1, ihb2⟩ := ih (fun z hz => hwf z (List.mem_cons_of_mem _ hz)) k
    rcases hxy with rfl | ⟨a, b, rfl, rfl, hab⟩
    · -- identical slots contribute nothing
      have hcontrib : (if x.isSome || x.isSome then compareASTs x x else []) = [] := by
        cases x with
        | none => simp
        | some c =>
          have hwfc : WFNode c := hwf _ (List.mem_cons_self _ _) c rfl
          simp [compareASTs_refl c hwfc]
      rw [compareChildren, hcontrib, List.nil_append]
      cases x with
      | none => simpa [optKeyCount, List.countP_cons] using ⟨ihbal, ihb1, ihb2⟩
      | some c =>
        simp only [optKeyCount, List.countP_cons] at *
        by_cases hkc : devKey (removalOf c) = k <;> simp [hkc] <;> omega
    · -- a swap pair
      have hcontrib : (if (some a).isSome || (some b).isSome then
          compareASTs (some a) (some b) else []) = [removalOf a, additionOf b] := by
        simp [compareASTs_swap a b hab]
      rw [compareChildren, hcontrib]
      have hfr : ([removalOf a, additionOf b] ++ compareChildren as' bs').filter
          (fun d => d.type == DevType.removal) =
          removalOf a :: (compareChildren as' bs').filter (fun d => d.type == DevType.removal) := by
        simp [List.filter_append, List.filter_cons, removalOf, additionOf]
      have hfa : ([removalOf a, additionOf b] ++ compareChildren as' bs').filter
          (fun d => d.type == DevType.addition) =
          additionOf b :: (compareChildren as' bs').filter (fun d => d.type == DevType.addition) := by
        simp [List.filter_append, List.filter_cons, removalOf, additionOf]
      rw [hfr, hfa]
      simp only [keyCount_cons, optKeyCount, List.countP_cons] at *
      have hka : devKey (removalOf a) = devKey (removalOf a) := rfl
      have hkb : devKey (additionOf b) = devKey (removalOf b) := devKey_additionOf b
      by_cases h1 : devKey (removalOf a) = k <;> by_cases h2 : devKey (removalOf b) = k <;>
        simp [h1, h2, hkb] <;> omega

theorem list_eq_singleton_of_counts {l : List Deviation} {kA : String}
    (h1 : keyCount devKey kA l = 1) (h0 : ∀ k, ¬ k = kA → keyCount devKey k l = 0) :
    ∃ x, l = [x] ∧ devKey x = kA := by
  have hall : ∀ d ∈ l, devKey d = kA := by
    intro d hd
    by_contra hne
    have hz := h0 _ hne
    have hp := keyCount_pos_of_mem devKey hd
    omega
  have hfl : l.filter (fun d => decide (devKey d = kA)) = l :=
    List.filter_eq_self.mpr (by intro a ha; simpa using hall a ha)
  have hlen : l.length = 1 := by
    have h2 := h1
    rw [keyCount, List.countP_eq_length_filter, hfl] at h2
    exact h2
  obtain ⟨x, hx⟩ := List.length_eq_one.mp hlen
  refine ⟨x, hx, hall x ?_⟩
  rw [hx]
  exact List.mem_cons_self _ _

theorem mem_eq_of_keyCount_one {l : List Deviation} {kA : String}
    (h : keyCount devKey kA l = 1) {x y : Deviation}
    (hx : x ∈ l) (hy : y ∈ l) (hkx : devKey x = kA) (hky : devKey y = kA) : x = y := by
  have hx2 : x ∈ l.filter (fun d => decide (devKey d = kA)) := by
    simp [List.mem_filter, hx, hkx]
  have hy2 : y ∈ l.filter (fun d => decide (devKey d = kA)) := by
    simp [List.mem_filter, hy, hky]
  have hlen : (l.filter (fun d => decide (devKey d = kA))).length = 1 := by
    rw [← List.countP_eq_length_filter]
    exact h
  obtain ⟨z, hz⟩ := List.length_eq_one.mp hlen
  rw [hz] at hx2 hy2
  simp at hx2 hy2
  rw [hx2, hy2]

/-- When the removals have exactly one excess key `kA` (one unmatched removal
`r0`) and the additions one excess key `kB` (one unmatched addition `a0`),
and everything else balances, the scan returns exactly that removal and that
addition. -/
theorem matchRemovals_single_excess
    (rs adds : List Deviation) (kA kB : String) (r0 a0 : Deviation)
    (hkAB : ¬ kA = kB)
    (hr0 : r0 ∈ rs) (hkr0 : devKey r0 = kA)
    (ha0 : a0 ∈ adds) (hka0 : devKey a0 = kB)
    (hA1 : keyCount devKey kA rs = 1) (hA2 : keyCount devKey kA adds = 0)
    (hB1 : keyCount devKey kB rs = 0) (hB2 : keyCount devKey kB adds = 1)
    (hbal : ∀ k, ¬ k = kA → ¬ k = kB → keyCount devKey k rs = keyCount devKey k adds) :
    matchRemovals devKey rs adds = ([r0], [a0]) := by
  have hc1 : ∀ k, keyCount devKey k (matchRemovals devKey rs adds).1 =
      if k = kA then 1 else 0 := by
    intro k
    rw [matchRemovals_fst_count]
    by_cases hk : k = kA
    · subst hk
      rw [hA1, hA2, if_pos rfl]
    · rw [if_neg hk]
      by_cases hk2 : k = kB
      · subst hk2
        rw [hB1, hB2]
      · rw [hbal k hk hk2]
        omega
  have hc2 : ∀ k, keyCount devKey k (matchRemovals devKey rs adds).2 =
      if k = kB then 1 else 0 := by
    intro k
    rw [matchRemovals_snd_count]
    by_cases hk : k = kB
    · subst hk
      rw [hB1, hB2, if_pos rfl]
    · rw [if_neg hk]
      by_cases hk2 : k = kA
      · subst hk2
        rw [hA1, hA2]
      · rw [hbal k hk2 hk]
        omega
  obtain ⟨x, hx, hkx⟩ := list_eq_singleton_of_counts
    (by rw [hc1, if_pos rfl]) (fun k hk => by rw [hc1, if_neg hk])
  obtain ⟨y, hy, hky⟩ := list_eq_singleton_of_counts
    (by rw [hc2, if_pos rfl]) (fun k hk => by rw [hc2, if_neg hk])
  have hxmem : x ∈ rs := (matchRemovals_fst_sublist devKey rs adds).subset
    (by rw [hx]; exact List.mem_cons_self _ _)
  have hymem : y ∈ adds := (matchRemovals_snd_sublist devKey rs adds).subset
    (by rw [hy]; exact List.mem_cons_self _ _)
  have hxr0 : x = r0 := mem_eq_of_keyCount_one hA1 hxmem hr0 hkx hkr0
  have hya0 : y = a0 := mem_eq_of_keyCount_one hB2 hymem ha0 hky hka0
  have hfst : (matchRemovals devKey rs adds).1 = [r0] := by rw [hx, hxr0]
  have hsnd : (matchRemovals devKey rs adds).2 = [a0] := by rw [hy, hya0]
  calc matchRemovals devKey rs adds
      = ((matchRemovals devKey rs adds).1, (matchRemovals devKey rs adds).2) := rfl
    _ = ([r0], [a0]) := by rw [hfst, hsnd]

/-- C1: over a parent pair whose single significant field holds `MoveRel`-
aligned permuted child lists (each aligned pair identical or of different
kinds), the comparison cancels to the empty sequence; and if additionally one
aligned position holds two string literals with mismatching textual content
and fresh keys, the comparison yields exactly the removal/addition pair for
that changed literal and nothing for the reordering. -/
theorem c1_move_cancellation :
    (∀ (n1 n2 : Node) (k : String) (as bs : List (Option Node)),
      n1.type = n2.type → ¬ n1.type = "Identifier" → ¬ n1.type = "Literal" →
      sigFields n1 = [(k, FieldVal.childList as)] →
      sigFields n2 = [(k, FieldVal.childList bs)] →
      (n2.fields.map Prod.fst).Nodup →
      List.Forall₂ MoveRel as bs → as.Perm bs → (∀ x ∈ as, WFOpt x) →
      compareASTs (some n1) (some n2) = []) ∧
    (∀ (n1 n2 : Node) (k : String) (u v u2 v2 : List (Option Node)) (la lb : Node),
      n1.type = n2.type → ¬ n1.type = "Identifier" → ¬ n1.type = "Literal" →
      sigFields n1 = [(k, FieldVal.childList (u ++ some la :: v))] →
      sigFields n2 = [(k, FieldVal.childList (u2 ++ some lb :: v2))] →
      (n2.fields.map Prod.fst).Nodup →
      u.length = u2.length →
      List.Forall₂ MoveRel u u2 → List.Forall₂ MoveRel v v2 →
      List.Perm (u ++ v) (u2 ++ v2) →
      (∀ x ∈ u ++ v, WFOpt x) →
      la.type = "Literal" → lb.type = "Literal" →
      literalMismatch (getField la "value") (getField lb "value") = true →
      ¬ devKey (literalRemoval la) = devKey (literalAddition lb) →
      optKeyCount (devKey (literalRemoval la)) (u ++ v) = 0 →
      optKeyCount (devKey (literalRemoval la)) (u2 ++ v2) = 0 →
      optKeyCount (devKey (literalAddition lb)) (u ++ v) = 0 →
      optKeyCount (devKey (literalAddition lb)) (u2 ++ v2) = 0 →
      compareASTs (some n1) (some n2) = [literalRemoval la, literalAddition lb]) := by
  constructor
  · intro n1 n2 k as bs heq hid hlit hsf1 hsf2 hnd2 hrel hperm hwf
    rw [compareASTs_single_childList n1 n2 k as bs heq hid hlit hsf1 hsf2 hnd2]
    rw [filterMoves_eq_reconcile_devKey, reconcile]
    have hbal : ∀ k', keyCount devKey k'
        ((compareChildren as bs).filter (fun d => d.type == DevType.removal)) =
        keyCount devKey k'
        ((compareChildren as bs).filter (fun d => d.type == DevType.addition)) := by
      intro k'
      obtain ⟨h1, _, _⟩ := compareChildren_counts hrel hwf k'
      have hopt : optKeyCount k' as = optKeyCount k' bs := by
        rw [optKeyCount, optKeyCount]
        exact hperm.countP_eq _
      omega
    have hfst : (matchRemovals devKey
        ((compareChildren as bs).filter (fun d => d.type == DevType.removal))
        ((compareChildren as bs).filter (fun d => d.type == DevType.addition))).1 = [] := by
      apply eq_nil_of_keyCount_zero devKey
      intro k'
      rw [matchRemovals_fst_count, hbal k']
      omega
    have hsnd : (matchRemovals devKey
        ((compareChildren as bs).filter (fun d => d.type == DevType.removal))
        ((compareChildren as bs).filter (fun d => d.type == DevType.addition))).2 = [] := by
      apply eq_nil_of_keyCount_zero devKey
      intro k'
      rw [matchRemovals_snd_count, hbal k']
      omega
    show (matchRemovals devKey _ _).1 ++ (matchRemovals devKey _ _).2 = []
    rw [hfst, hsnd]
    rfl
  · intro n1 n2 k u v u2 v2 la lb heq hid hlit hsf1 hsf2 hnd2 hlen hrelU hrelV hperm hwf
      hla hlb hmis hkAB hfA hfA2 hfB hfB2
    have hwfU : ∀ x ∈ u, WFOpt x := fun x hx => hwf x (List.mem_append_left _ hx)
    have hwfV : ∀ x ∈ v, WFOpt x := fun x hx => hwf x (List.mem_append_right _ hx)
    rw [compareASTs_single_childList n1 n2 k _ _ heq hid hlit hsf1 hsf2 hnd2]
    rw [compareChildren_append u u2 _ _ hlen, compareChildren]
    rw [show (if (some la).isSome || (some lb).isSome then
        compareASTs (some la) (some lb) else []) = [literalRemoval la, literalAddition lb] by
      simp [compareASTs_literal_pair la lb hla hlb hmis]]
    rw [filterMoves_eq_reconcile_devKey, reconcile]
    have hfilr : (compareChildren u u2 ++ ([literalRemoval la, literalAddition lb] ++
        compareChildren v v2)).filter (fun d => d.type == DevType.removal) =
        (compareChildren u u2).filter (fun d => d.type == DevType.removal) ++
        literalRemoval la ::
          (compareChildren v v2).filter (fun d => d.type == DevType.removal) := by
      simp [List.filter_append, List.filter_cons, literalRemoval, literalAddition]
    have hfila : (compareChildren u u2 ++ ([literalRemoval la, literalAddition lb] ++
        compareChildren v v2)).filter (fun d => d.type == DevType.addition) =
        (compareChildren u u2).filter (fun d => d.type == DevType.addition) ++
        literalAddition lb ::
          (compareChildren v v2).filter (fun d => d.type == DevType.addition) := by
      simp [List.filter_append, List.filter_cons, literalRemoval, literalAddition]
    have hoptUV : ∀ k', optKeyCount k' u + optKeyCount k' v =
        optKeyCount k' u2 + optKeyCount k' v2 := by
      intro k'
      have h1 : optKeyCount k' (u ++ v) = optKeyCount k' (u2 ++ v2) := by
        rw [optKeyCount, optKeyCount]
        exact hperm.countP_eq _
      rw [optKeyCount_append, optKeyCount_append] at h1
      exact h1
    have hU := fun k' => compareChildren_counts hrelU hwfU k'
    have hV := fun k' => compareChildren_counts hrelV hwfV k'
    rw [optKeyCount_append] at hfA hfA2 hfB hfB2
    have hmatch : matchRemovals devKey
        ((compareChildren u u2 ++ ([literalRemoval la, literalAddition lb] ++
          compareChildren v v2)).filter (fun d => d.type == DevType.removal))
        ((compareChildren u u2 ++ ([literalRemoval la, literalAddition lb] ++
          compareChildren v v2)).filter (fun d => d.type == DevType.addition)) =
        ([literalRemoval la], [literalAddition lb]) := by
      rw [hfilr, hfila]
      apply matchRemovals_single_excess _ _
        (devKey (literalRemoval la)) (devKey (literalAddition lb)) _ _ hkAB
      · exact List.mem_append_right _ (List.mem_cons_self _ _)
      · rfl
      · exact List.mem_append_right _ (List.mem_cons_self _ _)
      · rfl
      · obtain ⟨_, hbU, _⟩ := hU (devKey (literalRemoval la))
        obtain ⟨_, hbV, _⟩ := hV (devKey (literalRemoval la))
        rw [keyCount_append, keyCount_cons, if_pos rfl]
        omega
      · obtain ⟨_, _, hbU⟩ := hU (devKey (literalRemoval la))
        obtain ⟨_, _, hbV⟩ := hV (devKey (literalRemoval la))
        rw [keyCount_append, keyCount_cons, if_neg (fun hc => hkAB hc.symm)]
        omega
      · obtain ⟨_, hbU, _⟩ := hU (devKey (literalAddition lb))
        obtain ⟨_, hbV, _⟩ := hV (devKey (literalAddition lb))
        rw [keyCount_append, keyCount_cons, if_neg hkAB]
        omega
      · obtain ⟨_, _, hbU⟩ := hU (devKey (literalAddition lb))
        obtain ⟨_, _, hbV⟩ := hV (devKey (literalAddition lb))
        rw [keyCount_append, keyCount_cons, if_pos rfl]
        omega
      · intro k' hkA hkB
        obtain ⟨hbalU, _, _⟩ := hU k'
        obtain ⟨hbalV, _, _⟩ := hV k'
        have hop := hoptUV k'
        rw [keyCount_append, keyCount_cons, if_neg (fun hc => hkA hc.symm),
          keyCount_append, keyCount_cons, if_neg (fun hc => hkB hc.symm)]
        omega
    show (matchRemovals devKey _ _).1 ++ (matchRemovals devKey _ _).2 = _
    rw [hmatch]
    rfl

/-- A well-formed flat node with one scalar field. -/
theorem wfnode_flat (t : String) (s e : Nat) (k : String) (p : Prim) :
    WFNode (Node.mk t s e [(k, FieldVal.scalar p)]) := by
  refine WFNode.mk _ _ _ _ (by simp) ?_
  intro kv hkv
  simp only [List.mem_cons, List.not_mem_nil, or_false] at hkv
  subst hkv
  exact WFVal.scalar _

/-! Concrete material for the C1 counterexample: two same-kind statements
swapped — an ordered child list that is a permutation of the other with no
content change — whose comparison nevertheless reports four deviations,
because the recursion into the aligned same-kind pairs emits property-change
pairs whose `changed from`/`changed to` descriptions never match. -/

def c1s1 : Node := Node.mk "Stmt" 0 3 [("op", FieldVal.scalar (Prim.str "+"))]

def c1s2 : Node := Node.mk "Stmt" 4 7 [("op", FieldVal.scalar (Prim.str "-"))]

def c1blkA : Node := Node.mk "Block" 0 7 [("body", FieldVal.childList [some c1s1, some c1s2])]

def c1blkB : Node := Node.mk "Block" 0 7 [("body", FieldVal.childList [some c1s2, some c1s1])]

/-- C1 counterexample: the parents are of the same kind and their ordered
child lists are permutations of each other with no content change, yet
`compareASTs` returns four surviving deviations rather than the empty
sequence. -/
theorem c1_counterexample :
    List.Perm [some c1s1, some c1s2] [some c1s2, some c1s1] ∧
    c1blkA.type = c1blkB.type ∧
    compareASTs (some c1blkA) (some c1blkB) =
      [propertyChangedRemoval c1s1 "op" (FieldVal.scalar (Prim.str "+")),
       propertyChangedRemoval c1s2 "op" (FieldVal.scalar (Prim.str "-")),
       propertyChangedAddition c1s2 "op" (FieldVal.scalar (Prim.str "-")),
       propertyChangedAddition c1s1 "op" (FieldVal.scalar (Prim.str "+"))] ∧
    ¬ compareASTs (some c1blkA) (some c1blkB) = [] := by
  have h3 : compareASTs (some c1blkA) (some c1blkB) =
      [propertyChangedRemoval c1s1 "op" (FieldVal.scalar (Prim.str "+")),
       propertyChangedRemoval c1s2 "op" (FieldVal.scalar (Prim.str "-")),
       propertyChangedAddition c1s2 "op" (FieldVal.scalar (Prim.str "-")),
       propertyChangedAddition c1s1 "op" (FieldVal.scalar (Prim.str "+"))] := by
    simp [compareASTs, compareFields, compareChildren, c1blkA, c1blkB, c1s1, c1s2, Node.type,
      Node.fields, sigFields, sigKeys, keysToIgnore, getField, lookupField, keysMatch,
      isNodeV, isNodeArrayV, isArrayV, asNode, asNodeList, fieldValPrimEq, nonNodeArraysEqual,
      filterMoves, processRemovals, buildAdditionMap, mapGet, mapPush, mapSet, mapErase, devKey,
      propertyChangedRemoval, propertyChangedAddition, fieldValToString, primToString,
      Node.start, Node.stop]
    all_goals decide
  refine ⟨List.Perm.swap _ _ _, rfl, h3, ?_⟩
  rw [h3]
  decide

/-! Concrete material for the C1 witness: a genuine swap of two children of
different kinds (part 1), and the same swap with a trailing string literal
changed from `"p"` to `"q"` (part 2). -/

def c1wa : Node := Node.mk "A" 0 1 [("x", FieldVal.scalar (Prim.num 1))]

def c1wb : Node := Node.mk "B" 2 3 [("y", FieldVal.scalar (Prim.num 2))]

def c1P1 : Node := Node.mk "Par" 0 4 [("body", FieldVal.childList [some c1wa, some c1wb])]

def c1P2 : Node := Node.mk "Par" 0 4 [("body", FieldVal.childList [some c1wb, some c1wa])]

def c1la : Node :=
  Node.mk "Literal" 4 5 [("value", FieldVal.scalar (Prim.str "p")),
                         ("raw", FieldVal.scalar (Prim.str "_p_"))]

def c1lb : Node :=
  Node.mk "Literal" 4 5 [("value", FieldVal.scalar (Prim.str "q")),
                         ("raw", FieldVal.scalar (Prim.str "_q_"))]

def c1Q1 : Node :=
  Node.mk "Par" 0 6 [("body", FieldVal.childList [some c1wa, some c1wb, some c1la])]

def c1Q2 : Node :=
  Node.mk "Par" 0 6 [("body", FieldVal.childList [some c1wb, some c1wa, some c1lb])]

theorem c1wa_wf : WFNode c1wa := wfnode_flat _ _ _ _ _

theorem c1wb_wf : WFNode c1wb := wfnode_flat _ _ _ _ _

theorem c1_wfopt_pair : ∀ x ∈ [some c1wa, some c1wb], WFOpt x := by
  intro x hx
  simp only [List.mem_cons, List.not_mem_nil, or_false] at hx
  rcases hx with rfl | rfl <;>
    · intro c hc
      cases hc
      first
      | exact c1wa_wf
      | exact c1wb_wf

/-- C1 witness: the amended theorem applied to the concrete swap (empty
result) and to the swap with a changed trailing string literal (exactly the
literal's pair). -/
theorem c1_move_cancellation_witness :
    compareASTs (some c1P1) (some c1P2) = [] ∧
    compareASTs (some c1Q1) (some c1Q2) = [literalRemoval c1la, literalAddition c1lb] := by
  constructor
  · exact c1_move_cancellation.1 c1P1 c1P2 "body" [some c1wa, some c1wb] [some c1wb, some c1wa]
      rfl (by decide) (by decide) rfl rfl (by decide)
      (List.Forall₂.cons (Or.inr ⟨c1wa, c1wb, rfl, rfl, by decide⟩)
        (List.Forall₂.cons (Or.inr ⟨c1wb, c1wa, rfl, rfl, by decide⟩) List.Forall₂.nil))
      (List.Perm.swap _ _ _)
      c1_wfopt_pair
  · exact c1_move_cancellation.2 c1Q1 c1Q2 "body" [some c1wa, some c1wb] []
      [some c1wb, some c1wa] [] c1la c1lb
      rfl (by decide) (by decide) rfl rfl (by decide) rfl
      (List.Forall₂.cons (Or.inr ⟨c1wa, c1wb, rfl, rfl, by decide⟩)
        (List.Forall₂.cons (Or.inr ⟨c1wb, c1wa, rfl, rfl, by decide⟩) List.Forall₂.nil))
      List.Forall₂.nil
      (by simpa using (List.Perm.swap (some c1wb) (some c1wa) []))
      (by simpa using c1_wfopt_pair)
      rfl rfl rfl (by decide) (by decide) (by decide) (by decide) (by decide)

/-! C9: the two `getLineNumber` implementations of src/diff/generate.ts,
over source text modelled as a list of characters.  The second version's
per-string cache is observationally the recomputation it caches (it is keyed
by the full text and holds a pure function of it). -/

namespace DiffV1

/-- JS `str.split('\n')`: the chunks between newline characters; the empty
string splits to `[""]`, so the result is never empty. -/
def splitNl : List Char → List (List Char)
  | [] => [[]]
  | c :: rest =>
    if c = '\n' then [] :: splitNl rest
    else
      match splitNl rest with
      | [] => [[c]]
      | chunk :: chunks => (c :: chunk) :: chunks

/-- `getLineNumber` (first version, lines 5-9):
`code.substring(0, Math.min(charIndex, code.length)).split('\n').length`,
negative indices mapping to line 1. -/
def getLineNumber (code : List Char) (charIndex : Int) : Nat :=
  if charIndex < 0 then 1
  else (splitNl (code.take (min charIndex.toNat code.length))).length

end DiffV1

namespace DiffV2

/-- The regex loop filling `lineStarts` past the initial `0`: for each
newline at index `idx`, push `idx + 1`. -/
def lineStartsAux : List Char → Nat → List Nat
  | [], _ => []
  | c :: rest, i =>
    if c = '\n' then (i + 1) :: lineStartsAux rest (i + 1)
    else lineStartsAux rest (i + 1)

/-- `lineStarts = [0]` followed by the newline successors. -/
def computeLineStarts (code : List Char) : List Nat := 0 :: lineStartsAux code 0

/-- The `while (low <= high)` binary search: `mid = Math.floor((low+high)/2)`
(Lean's `Int` division is floor division for the positive divisor), take the
left half when `lineStarts[mid] <= safeCharIndex` recording `line = mid + 1`.
All reachable states keep `0 ≤ low ≤ mid ≤ high < lineStarts.length`, so the
`getD` default and `toNat` conversions are never exercised. -/
def bsearch (lineStarts : List Nat) (target : Nat) (low high : Int) (line : Nat) : Nat :=
  if h : low ≤ high then
    let mid := (low + high) / 2
    if lineStarts.getD mid.toNat 0 ≤ target then
      bsearch lineStarts target (mid + 1) high (mid.toNat + 1)
    else
      bsearch lineStarts target low (mid - 1) line
  else line
termination_by (high + 1 - low).toNat
decreasing_by
  all_goals simp_wf
  all_goals omega

/-- `getLineNumber` (second, cached version, lines 124-166). -/
def getLineNumber (code : List Char) (charIndex : Int) : Nat :=
  if charIndex < 0 then 1
  else
    let safeCharIndex := min charIndex.toNat code.length
    let lineStarts := computeLineStarts code
    bsearch lineStarts safeCharIndex 0 ((lineStarts.length : Int) - 1) 1

end DiffV2

theorem splitNl_length : ∀ (l : List Char), (DiffV1.splitNl l).length = l.count '\n' + 1 := by
  intro l
  induction l with
  | nil => rfl
  | cons c rest ih =>
    by_cases hc : c = '\n'
    · subst hc
      simp [DiffV1.splitNl, List.count_cons, ih]
    · rcases h : DiffV1.splitNl rest with _ | ⟨chunk, chunks⟩
      · rw [h] at ih
        simp at ih
      · rw [h] at ih
        simp only [List.length_cons] at ih
        simp [DiffV1.splitNl, hc, h, List.count_cons, ← ih]

theorem lineStartsAux_gt : ∀ (l : List Char) (i : Nat), ∀ x ∈ DiffV2.lineStartsAux l i, i < x := by
  intro l
  induction l with
  | nil => intro i x hx; simp [DiffV2.lineStartsAux] at hx
  | cons c rest ih =>
    intro i x hx
    by_cases hc : c = '\n'
    · simp only [DiffV2.lineStartsAux, hc, if_pos] at hx
      rcases List.mem_cons.mp hx with rfl | hx
      · omega
      · have := ih (i + 1) x hx
        omega
    · simp only [DiffV2.lineStartsAux, hc, if_neg, not_false_iff] at hx
      have := ih (i + 1) x hx
      omega

theorem lineStartsAux_pairwise : ∀ (l : List Char) (i : Nat),
    List.Pairwise (· < ·) (DiffV2.lineStartsAux l i) := by
  intro l
  induction l with
  | nil => intro i; simp [DiffV2.lineStartsAux]
  | cons c rest ih =>
    intro i
    by_cases hc : c = '\n'
    · simp only [DiffV2.lineStartsAux, hc, if_pos]
      refine List.Pairwise.cons ?_ (ih (i + 1))
      intro x hx
      exact lineStartsAux_gt rest (i + 1) x hx
    · simp only [DiffV2.lineStartsAux, hc, if_neg, not_false_iff]
      exact ih (i + 1)

theorem computeLineStarts_pairwise (code : List Char) :
    List.Pairwise (· < ·) (DiffV2.computeLineStarts code) := by
  refine List.Pairwise.cons ?_ (lineStartsAux_pairwise code 0)
  intro x hx
  exact lineStartsAux_gt code 0 x hx

theorem pairwise_getD_mono {l : List Nat} (h : List.Pairwise (· < ·) l) :
    ∀ (a b : Nat), a ≤ b → b < l.length → l.getD a 0 ≤ l.getD b 0 := by
  intro a b hab hb
  have ha : a < l.length := lt_of_le_of_lt hab hb
  rw [List.getD_eq_getElem l 0 ha, List.getD_eq_getElem l 0 hb]
  rcases Nat.lt_or_ge a b with h2 | h2
  · have := (List.pairwise_iff_get.mp h) ⟨a, ha⟩ ⟨b, hb⟩ h2
    simp only [List.get_eq_getElem] at this
    omega
  · have hba : a = b := by omega
    subst hba
    exact Nat.le_refl _

/-- A list with a `≤ t` prefix of length `c` and a `> t` remainder has
exactly `c` elements `≤ t`. -/
theorem filter_le_length_of_cut : ∀ (l : List Nat) (c t : Nat),
    (∀ j, j < c → l.getD j 0 ≤ t) →
    (∀ j, c ≤ j → j < l.length → t < l.getD j 0) →
    c ≤ l.length →
    (l.filter (fun s => decide (s ≤ t))).length = c := by
  intro l
  induction l with
  | nil =>
    intro c t _ _ hc
    simp at hc
    simp [hc]
  | cons x rest ih =>
    intro c t hlow hhigh hc
    cases c with
    | zero =>
      have hx : t < x := by
        have := hhigh 0 (Nat.le_refl 0) (by simp)
        simpa using this
      rw [List.filter_cons, if_neg (by simp; omega)]
      apply ih 0 t (by intro j hj; omega)
      · intro j _ hj
        have := hhigh (j + 1) (by omega) (by simpa using hj)
        simpa using this
      · omega
    | succ c' =>
      have hx : x ≤ t := by
        have := hlow 0 (by omega)
        simpa using this
      rw [List.filter_cons, if_pos (by simpa using hx)]
      simp only [List.length_cons]
      rw [ih c' t]
      · intro j hj
        have := hlow (j + 1) (by omega)
        simpa using this
      · intro j hj1 hj2
        have := hhigh (j + 1) (by omega) (by simpa using hj2)
        simpa using this
      · simpa using hc

/-- Elements of the newline-successor list that are `≤ t` correspond to
newlines strictly inside the first `t - i` remaining characters. -/
theorem lineStartsAux_filter_le : ∀ (l : List Char) (i t : Nat),
    ((DiffV2.lineStartsAux l i).filter (fun s => decide (s ≤ t))).length =
      (l.take (t - i)).count '\n' := by
  intro l
  induction l with
  | nil => intro i t; simp [DiffV2.lineStartsAux]
  | cons c rest ih =>
    intro i t
    rcases Nat.eq_zero_or_pos (t - i) with hti | hti
    · rw [hti, List.take_zero]
      by_cases hc : c = '\n'
      · simp only [DiffV2.lineStartsAux, hc, if_pos]
        rw [List.filter_cons, if_neg (by simp; omega)]
        rw [ih (i + 1) t]
        have h2 : t - (i + 1) = 0 := by omega
        simp [h2]
      · simp only [DiffV2.lineStartsAux, hc, if_neg, not_false_iff]
        rw [ih (i + 1) t]
        have h2 : t - (i + 1) = 0 := by omega
        simp [h2]
    · obtain ⟨m, hm⟩ : ∃ m, t - i = m + 1 := ⟨t - i - 1, by omega⟩
      rw [hm, List.take_succ_cons]
      by_cases hc : c = '\n'
      · subst hc
        simp only [DiffV2.lineStartsAux, if_pos]
        rw [List.filter_cons, if_pos (by simp; omega)]
        simp only [List.length_cons]
        rw [ih (i + 1) t, List.count_cons]
        have h2 : t - (i + 1) = m := by omega
        simp [h2]
      · simp only [DiffV2.lineStartsAux, hc, if_neg, not_false_iff]
        rw [ih (i + 1) t, List.count_cons]
        have h2 : t - (i + 1) = m := by omega
        simp [h2, hc]

theorem computeLineStarts_filter_le (code : List Char) (t : Nat) :
    ((DiffV2.computeLineStarts code).filter (fun s => decide (s ≤ t))).length =
      (code.take t).count '\n' + 1 := by
  rw [DiffV2.computeLineStarts, List.filter_cons, if_pos (by simp)]
  simp only [List.length_cons]
  rw [lineStartsAux_filter_le code 0 t]
  simp

/-- Correctness of the binary-search loop: with a monotone start table whose
head is `≤ target`, it computes the number of table entries `≤ target`. -/
theorem bsearch_spec (starts : List Nat) (t : Nat)
    (hmono : ∀ a b : Nat, a ≤ b → b < starts.length → starts.getD a 0 ≤ starts.getD b 0)
    (hlen : 0 < starts.length) (hstart : starts.getD 0 0 ≤ t) :
    ∀ (fuel : Nat) (low high : Int) (line : Nat),
    (high + 1 - low).toNat ≤ fuel →
    0 ≤ low → low ≤ high + 1 → high < (starts.length : Int) →
    ((low = 0 ∧ line = 1) ∨ (0 < low ∧ line = low.toNat)) →
    (∀ j : Nat, (j : Int) < low → starts.getD j 0 ≤ t) →
    (∀ j : Nat, high < (j : Int) → j < starts.length → t < starts.getD j 0) →
    DiffV2.bsearch starts t low high line =
      (starts.filter (fun s => decide (s ≤ t))).length := by
  intro fuel
  induction fuel with
  | zero =>
    intro low high line hfuel h0 hlh hhl hline hlow hhigh
    have hexit : ¬ low ≤ high := by omega
    rw [DiffV2.bsearch, dif_neg hexit]
    have hlowhigh : low = high + 1 := by omega
    rcases hline with ⟨hl0, hl1⟩ | ⟨hlpos, hleq⟩
    · exfalso
      have := hhigh 0 (by omega) hlen
      omega
    · rw [hleq]
      rw [filter_le_length_of_cut starts low.toNat t]
      · intro j hj
        exact hlow j (by omega)
      · intro j hj1 hj2
        exact hhigh j (by omega) hj2
      · omega
  | succ fuel ih =>
    intro low high line hfuel h0 hlh hhl hline hlow hhigh
    by_cases hcond : low ≤ high
    · rw [DiffV2.bsearch, dif_pos hcond]
      have hmid1 : low ≤ (low + high) / 2 := by omega
      have hmid2 : (low + high) / 2 ≤ high := by omega
      by_cases hle : starts.getD ((low + high) / 2).toNat 0 ≤ t
      · simp only [hle, if_pos]
        apply ih
        · omega
        · omega
        · omega
        · exact hhl
        · right
          constructor
          · omega
          · omega
        · intro j hj
          apply le_trans (hmono j ((low + high) / 2).toNat (by omega) (by omega)) hle
        · exact hhigh
      · simp only [hle, if_neg, not_false_iff]
        apply ih
        · omega
        · exact h0
        · omega
        · omega
        · exact hline
        · exact hlow
        · intro j hj1 hj2
          have hms : starts.getD ((low + high) / 2).toNat 0 ≤ starts.getD j 0 :=
            hmono _ _ (by omega) hj2
          omega
    · rw [DiffV2.bsearch, dif_neg hcond]
      have hlowhigh : low = high + 1 := by omega
      rcases hline with ⟨hl0, hl1⟩ | ⟨hlpos, hleq⟩
      · exfalso
        have := hhigh 0 (by omega) hlen
        omega
      · rw [hleq]
        rw [filter_le_length_of_cut starts low.toNat t]
        · intro j hj
          exact hlow j (by omega)
        · intro j hj1 hj2
          exact hhigh j (by omega) hj2
        · omega

/-- C9: the naive and the cached `getLineNumber` agree everywhere; the common
value is 1 plus the number of newline characters strictly before
`min(offset, length)`, and every negative offset maps to line 1. -/
theorem c9_getLineNumber_equiv (code : List Char) (charIndex : Int) :
    DiffV2.getLineNumber code charIndex = DiffV1.getLineNumber code charIndex ∧
    (0 ≤ charIndex → DiffV1.getLineNumber code charIndex =
      1 + (code.take (min charIndex.toNat code.length)).count '\n') ∧
    (charIndex < 0 → DiffV1.getLineNumber code charIndex = 1) := by
  have hval : 0 ≤ charIndex → DiffV1.getLineNumber code charIndex =
      1 + (code.take (min charIndex.toNat code.length)).count '\n' := by
    intro hpos
    rw [DiffV1.getLineNumber, if_neg (by omega), splitNl_length]
    omega
  refine ⟨?_, hval, ?_⟩
  · by_cases hneg : charIndex < 0
    · rw [DiffV1.getLineNumber, if_pos hneg, DiffV2.getLineNumber, if_pos hneg]
    · rw [DiffV2.getLineNumber, if_neg hneg, hval (by omega)]
      have hmono := pairwise_getD_mono (computeLineStarts_pairwise code)
      have hlen : 0 < (DiffV2.computeLineStarts code).length := by
        rw [DiffV2.computeLineStarts]
        simp
      have hres := bsearch_spec (DiffV2.computeLineStarts code)
        (min charIndex.toNat code.length) hmono hlen
        (by rw [DiffV2.computeLineStarts]; simp)
        (((DiffV2.computeLineStarts code).length : Int) - 1 + 1 - 0).toNat
        0 (((DiffV2.computeLineStarts code).length : Int) - 1) 1
        (by omega) (by omega) (by omega) (by omega)
        (Or.inl ⟨rfl, rfl⟩)
        (by intro j hj; omega)
        (by intro j hj1 hj2; omega)
      rw [hres, computeLineStarts_filter_le]
      omega
  · intro hneg
    rw [DiffV1.getLineNumber, if_pos hneg]

/-- C9 witness: both implementations at a concrete text and offset. -/
theorem c9_getLineNumber_equiv_witness :
    DiffV2.getLineNumber [Char.ofNat 97, Char.ofNat 10, Char.ofNat 98] 2 =
      DiffV1.getLineNumber [Char.ofNat 97, Char.ofNat 10, Char.ofNat 98] 2 ∧
    DiffV1.getLineNumber [Char.ofNat 97, Char.ofNat 10, Char.ofNat 98] 2 =
      1 + (([Char.ofNat 97, Char.ofNat 10, Char.ofNat 98].take
        (min (Int.toNat 2) 3)).count '\n') :=
  ⟨(c9_getLineNumber_equiv _ _).1, (c9_getLineNumber_equiv _ _).2.1 (by decide)⟩

end Fiji
